import Mathlib

/-!
Shallow embedding of `deepxde/nn/pytorch/fnn.py` (classes `FNN` and `PFNN`)
and proofs about it.

Tensors are modelled as single-sample feature vectors `List ℚ`; a call of
`torch.nn.Linear` is modelled as `y = W x + b` over exact rationals.  A
weight initializer drawn from the registry is modelled as an abstract value
stream `w : Nat → Nat → Nat → ℚ` giving the entry at (call index, row,
column); the bias initializer is the "zeros" initializer, as in the source.
Fallible Python code (assertions, IndexError, TypeError, `torch.cat` of an
empty list) is modelled with `Except` / `Option`.
-/

set_option autoImplicit false

/-- Numeric dtypes of the tensor framework.  Only the distinction between
the framework default (`float32`) and the configured precision returned by
`config.real(torch)` matters here. -/
inductive DType where
  | float32
  | float64
deriving DecidableEq, Repr

/-- The framework's default floating dtype (`torch.get_default_dtype()`). -/
def defaultDtype : DType := .float32

/-- Python truthiness of a `torch.dtype` object: it is neither `None` nor
`False` nor a zero, hence always truthy when used as the `bias` flag. -/
def dtypeTruthy (_ : DType) : Bool := true

/-- A `torch.nn.Linear` module: in/out feature counts, whether a bias is
present, the dtype it was constructed with, and its parameters (weight of
shape `outF × inF`, bias vector of length `outF`). -/
structure Linear where
  inF : Nat
  outF : Nat
  hasBias : Bool
  dtype : DType
  weight : List (List ℚ)
  biasV : List ℚ
deriving DecidableEq, Repr

/-- The weight tensor of shape `rows × cols` after the registry initializer
filled it in place: entry (r, c) of the `idx`-th initializer call is
`w idx r c`. -/
def initWeight (w : Nat → Nat → Nat → ℚ) (idx rows cols : Nat) : List (List ℚ) :=
  (List.range rows).map fun r => (List.range cols).map fun c => w idx r c

/-- The bias vector after the "zeros" initializer ran on it. -/
def zerosVec (n : Nat) : List ℚ :=
  List.replicate n (0 : ℚ)

/-- `torch.nn.Linear(nIn, nOut, dtype=dt)` (the `FNN` call site, line 24):
the dtype is passed by keyword, the bias flag keeps its default `True`;
afterwards the two initializers fill weight and bias. -/
def torchLinearKW (w : Nat → Nat → Nat → ℚ) (idx nIn nOut : Nat) (dt : DType) : Linear :=
  ⟨nIn, nOut, true, dt, initWeight w idx nOut nIn, zerosVec nOut⟩

/-- `torch.nn.Linear(nIn, nOut, third)` (the `PFNN.make_linear` call site,
line 68): the third positional parameter of `torch.nn.Linear` is the `bias`
flag, so `third` lands there (truthy, hence bias enabled) and the dtype
keeps the framework default. -/
def torchLinearPos3 (w : Nat → Nat → Nat → ℚ) (idx nIn nOut : Nat) (third : DType) : Linear :=
  ⟨nIn, nOut, dtypeTruthy third, defaultDtype, initWeight w idx nOut nIn, zerosVec nOut⟩

/-- Application of a linear module to a feature vector: `W x + b`. -/
def Linear.apply (l : Linear) (x : List ℚ) : List ℚ :=
  List.zipWith (fun row b => (List.zipWith (fun a c => a * c) row x).sum + b) l.weight l.biasV

/-- Shape well-formedness of a linear module's parameters. -/
def Linear.wf (l : Linear) : Prop :=
  l.weight.length = l.outF ∧ l.biasV.length = l.outF

/-- `x = self._input_transform(x)` when an input transform is set. -/
def inTrans (it : Option (List ℚ → List ℚ)) (x : List ℚ) : List ℚ :=
  match it with
  | some f => f x
  | none => x

/-- `x = self._output_transform(inputs, x)` when an output transform is set;
it receives the original inputs together with the network output. -/
def outTrans (ot : Option (List ℚ → List ℚ → List ℚ)) (inputs y : List ℚ) : List ℚ :=
  match ot with
  | some f => f inputs y
  | none => y

/-- The loop of `FNN.initialize_layers` (lines 22-29): one
`torch.nn.Linear(layer_sizes[i-1], layer_sizes[i], dtype=config.real(torch))`
per consecutive pair of sizes, with `k` the running call index. -/
def fnnBuild (w : Nat → Nat → Nat → ℚ) (cfg : DType) : Nat → List Nat → List Linear
  | k, a :: b :: rest => torchLinearKW w k a b cfg :: fnnBuild w cfg (k + 1) (b :: rest)
  | _, _ => []

/-- `FNN.initialize_layers`: the `self.linears` module list. -/
def FNN.initialize_layers (w : Nat → Nat → Nat → ℚ) (cfg : DType) (sizes : List Nat) : List Linear :=
  fnnBuild w cfg 0 sizes

/-- The body of `FNN.forward` after the input transform: run every linear
but the last through activation `σ`, then the last linear unactivated.
`none` models the `IndexError` of `self.linears[-1]` on an empty list. -/
def lastApply (σ : ℚ → ℚ) (net : List Linear) (x : List ℚ) : Option (List ℚ) :=
  match net.getLast? with
  | none => none
  | some l => some (l.apply (net.dropLast.foldl (fun v m => (m.apply v).map σ) x))

/-- `FNN.forward` (lines 31-40): optional input transform, hidden layers with
activation, last linear unactivated, optional output transform (which is
given the original inputs). -/
def FNN.forward (σ : ℚ → ℚ) (net : List Linear)
    (it : Option (List ℚ → List ℚ)) (ot : Option (List ℚ → List ℚ → List ℚ))
    (inputs : List ℚ) : Option (List ℚ) :=
  match lastApply σ net (inTrans it inputs) with
  | none => none
  | some y => some (outTrans ot inputs y)

/-- Specification-side description of the layer chain, written as a direct
structural recursion (activation after every layer except the last): used to
state that `FNN.forward` alternates linear and activation this way. -/
def specFNN (σ : ℚ → ℚ) : List Linear → List ℚ → List ℚ
  | [], x => x
  | [l], x => l.apply x
  | l :: m :: rest, x => specFNN σ (m :: rest) ((l.apply x).map σ)

/-- An entry of a `PFNN` layer-size sequence: a Python `int` (one layer
shared by all outputs) or a Python `list`/`tuple` of ints (one sub-layer per
output). -/
inductive LayerSize where
  | scalar (n : Nat)
  | branched (ns : List Nat)
deriving DecidableEq, Repr

/-- `isinstance(entry, int)`. -/
def LayerSize.isInt : LayerSize → Bool
  | .scalar _ => true
  | .branched _ => false

/-- An element of `PFNN.self.layers`: a single shared `torch.nn.Linear` or a
`torch.nn.ModuleList` of per-output sub-layers. -/
inductive PLayer where
  | shared (l : Linear)
  | par (fs : List Linear)
deriving DecidableEq, Repr

/-- Construction-time failures of `PFNN.initialize_layers`. -/
inductive PErr where
  | tooFewSizes
  | inputNotInt
  | outputNotInt
  | subLayerCount
  | rejoin
  | indexError
deriving DecidableEq, Repr

/-- `PFNN.make_linear` (lines 67-71): `torch.nn.Linear(n_input, n_output,
config.real(torch))` with the precision value in the positional `bias` slot,
then both initializers. -/
def mkLin (w : Nat → Nat → Nat → ℚ) (cfg : DType) (idx nIn nOut : Nat) : Linear :=
  torchLinearPos3 w idx nIn nOut cfg

/-- `layer_sizes[-1]` when it is an int (`n_output`); junk 0 otherwise (the
construction rejects a non-int last entry before using this). -/
def nOutOf (ls : List LayerSize) : Nat :=
  match ls.getLast? with
  | some (.scalar n) => n
  | _ => 0

/-- The consecutive pairs `(layer_sizes[i-1], layer_sizes[i])` visited by the
interior loop `for i in range(1, len(layer_sizes) - 1)`. -/
def interiorPairs : List LayerSize → List (LayerSize × LayerSize)
  | a :: b :: c :: rest => (a, b) :: interiorPairs (b :: c :: rest)
  | _ => []

/-- `layer_sizes[-2]`, defined whenever the sequence has length at least 2
(junk `scalar 0` below that, never reached past the length assertion). -/
def penultD : List LayerSize → LayerSize
  | [a, _] => a
  | _ :: b :: c :: rest => penultD (b :: c :: rest)
  | [a] => a
  | [] => .scalar 0

/-- One iteration of the interior loop of `PFNN.initialize_layers`
(lines 74-108), at running initializer-call index `cnt`:
branched current entry: assert its length equals `n_output`, then one
sub-layer per output (`prev[j] → curr[j]` if the previous entry is branched,
shared `prev → curr[j]` otherwise; `indexError` models the Python
`IndexError` of `prev_layer_size[j]` when the previous branch list is too
short); scalar current entry: assert the previous entry is also scalar
("cannot rejoin parallel subnetworks after splitting") and build one shared
layer. -/
def interiorStep (w : Nat → Nat → Nat → ℚ) (cfg : DType) (nOut cnt : Nat) :
    LayerSize × LayerSize → Except PErr (Nat × PLayer)
  | (prev, .branched curr) =>
      if curr.length = nOut then
        match prev with
        | .branched ps =>
            if nOut ≤ ps.length then
              .ok (cnt + nOut,
                .par ((List.range nOut).map fun j =>
                  mkLin w cfg (cnt + j) (ps.getD j 0) (curr.getD j 0)))
            else .error .indexError
        | .scalar p =>
            .ok (cnt + nOut,
              .par ((List.range nOut).map fun j =>
                mkLin w cfg (cnt + j) p (curr.getD j 0)))
      else .error .subLayerCount
  | (prev, .scalar c) =>
      match prev with
      | .scalar p => .ok (cnt + 1, .shared (mkLin w cfg cnt p c))
      | .branched _ => .error .rejoin

/-- The interior loop itself, threading the initializer-call counter and
collecting `self.layers` in order. -/
def interiorLoop (w : Nat → Nat → Nat → ℚ) (cfg : DType) (nOut : Nat) :
    Nat → List (LayerSize × LayerSize) → Except PErr (Nat × List PLayer)
  | cnt, [] => .ok (cnt, [])
  | cnt, pq :: rest =>
      match interiorStep w cfg nOut cnt pq with
      | .error e => .error e
      | .ok (cnt1, layer) =>
          match interiorLoop w cfg nOut cnt1 rest with
          | .error e => .error e
          | .ok (cnt2, layers) => .ok (cnt2, layer :: layers)

/-- The output stage of `PFNN.initialize_layers` (lines 110-118): when
`layer_sizes[-2]` is branched, one single-unit sub-layer per output
(`layer_sizes[-2][j] → 1`); otherwise one shared layer
`layer_sizes[-2] → n_output`. -/
def outputStage (w : Nat → Nat → Nat → ℚ) (cfg : DType) (nOut cnt : Nat) :
    LayerSize → Except PErr PLayer
  | .branched bs =>
      if nOut ≤ bs.length then
        .ok (.par ((List.range nOut).map fun j => mkLin w cfg (cnt + j) (bs.getD j 0) 1))
      else .error .indexError
  | .scalar p => .ok (.shared (mkLin w cfg cnt p nOut))

/-- `PFNN.initialize_layers` (lines 59-118): the three leading assertions,
then the interior loop, then the output stage. -/
def PFNN.initialize_layers (w : Nat → Nat → Nat → ℚ) (cfg : DType) (ls : List LayerSize) :
    Except PErr (List PLayer) :=
  if ls.length ≤ 1 then .error .tooFewSizes
  else
    match ls.head? with
    | some (.branched _) => .error .inputNotInt
    | _ =>
      match ls.getLast? with
      | some (.branched _) => .error .outputNotInt
      | _ =>
        match interiorLoop w cfg (nOutOf ls) 0 (interiorPairs ls) with
        | .error e => .error e
        | .ok (cnt, hidden) =>
            match outputStage w cfg (nOutOf ls) cnt (penultD ls) with
            | .error e => .error e
            | .ok out => .ok (hidden ++ [out])

/-- The running value `x` inside `PFNN.forward`: a single tensor or a Python
list of per-branch tensors. -/
inductive PVal where
  | single (v : List ℚ)
  | multi (vs : List (List ℚ))
deriving DecidableEq, Repr

/-- One iteration of the hidden loop of `PFNN.forward` (lines 126-133).
`none` models the `TypeError` of applying a shared `torch.nn.Linear` to a
Python list. -/
def pstep (σ : ℚ → ℚ) : PLayer → PVal → Option PVal
  | .par fs, .multi xs => some (.multi ((fs.zip xs).map fun p => (p.1.apply p.2).map σ))
  | .par fs, .single v => some (.multi (fs.map fun f => (f.apply v).map σ))
  | .shared l, .single v => some (.single ((l.apply v).map σ))
  | .shared _, .multi _ => none

/-- The hidden loop of `PFNN.forward` over `self.layers[:-1]`. -/
def pfnnHidden (σ : ℚ → ℚ) (layers : List PLayer) (x : PVal) : Option PVal :=
  layers.foldl (fun ox L => ox.bind fun v => pstep σ L v) (some x)

/-- `torch.cat(ys, dim=1)` along the feature axis; `none` models its
`RuntimeError` on an empty list of tensors. -/
def torchCat (ys : List (List ℚ)) : Option (List ℚ) :=
  if ys.isEmpty then none else some ys.flatten

/-- The output stage of `PFNN.forward` (lines 135-139): concatenate
per-branch single-unit outputs when `x` is a list, otherwise apply the
shared final layer.  The mismatched combinations model the `TypeError` of
`zip` over a `Linear` and of calling a `ModuleList`. -/
def pfnnOut : PLayer → PVal → Option (List ℚ)
  | .par fs, .multi xs => torchCat ((fs.zip xs).map fun p => p.1.apply p.2)
  | .shared _, .multi _ => none
  | .shared l, .single v => some (l.apply v)
  | .par _, .single _ => none

/-- `PFNN.forward` (lines 120-143). -/
def PFNN.forward (σ : ℚ → ℚ) (layers : List PLayer)
    (it : Option (List ℚ → List ℚ)) (ot : Option (List ℚ → List ℚ → List ℚ))
    (inputs : List ℚ) : Option (List ℚ) :=
  match layers.getLast? with
  | none => none
  | some lastL =>
      match pfnnHidden σ layers.dropLast (.single (inTrans it inputs)) with
      | none => none
      | some xF =>
          match pfnnOut lastL xF with
          | none => none
          | some y => some (outTrans ot inputs y)

/-- Whether `e` is a successful construction result. -/
def exOk {ε α : Type} : Except ε α → Bool
  | .ok _ => true
  | .error _ => false

/-- The per-pair constraint the interior loop checks: a branched current
entry must have exactly `nOut` sub-sizes; a scalar current entry must follow
a scalar entry. -/
def pairOk (nOut : Nat) : LayerSize × LayerSize → Bool
  | (_, .branched cs) => cs.length == nOut
  | (prev, .scalar _) => prev.isInt

/-- Chaining invariant of the loop: when the first remaining entry is
branched, its length has already been checked to be `nOut`. -/
def headOkP (nOut : Nat) (ls : List LayerSize) : Prop :=
  match ls.head? with
  | some (.branched bs) => bs.length = nOut
  | _ => True

/-- Every branched entry anywhere in the sequence has exactly `nOutOf ls`
sub-sizes. -/
def allBranchedOk (ls : List LayerSize) : Bool :=
  ls.all fun e =>
    match e with
    | .branched bs => bs.length == nOutOf ls
    | .scalar _ => true

/-- No interior transition goes from a branched entry to a scalar entry. -/
def noRejoinB (ls : List LayerSize) : Bool :=
  (interiorPairs ls).all fun pq =>
    match pq with
    | (.branched _, .scalar _) => false
    | _ => true

/-- The complete success condition of `PFNN.initialize_layers`. -/
def validSizes (ls : List LayerSize) : Bool :=
  decide (1 < ls.length) &&
    (match ls.head? with
     | some (.scalar _) => true
     | _ => false) &&
    (match ls.getLast? with
     | some (.scalar _) => true
     | _ => false) &&
    (interiorPairs ls).all (pairOk (nOutOf ls))

/-- Specification-side description of the interior transition rules
(spec §4.2): scalar→scalar keeps one shared layer; scalar→branched makes one
sub-layer per output fed from the shared previous size; branched→branched
makes one sub-layer per output matched by index; branched→scalar never
occurs in a successful construction. -/
def transitionSpec (nOut : Nat) : LayerSize → LayerSize → PLayer → Prop
  | .scalar p, .scalar c, .shared l => l.inF = p ∧ l.outF = c
  | .scalar p, .branched cs, .par fs =>
      fs.length = nOut ∧
        ∀ j, j < nOut → ∃ f, fs[j]? = some f ∧ f.inF = p ∧ f.outF = cs.getD j 0
  | .branched ps, .branched cs, .par fs =>
      fs.length = nOut ∧
        ∀ j, j < nOut → ∃ f, fs[j]? = some f ∧ f.inF = ps.getD j 0 ∧ f.outF = cs.getD j 0
  | _, _, _ => False

/-- Shape invariant of the running value of `PFNN.forward` against the
current layer-size entry: a single tensor for a scalar entry, a list of
`nOut` per-branch tensors for a branched entry. -/
def valShape (nOut : Nat) : PVal → LayerSize → Prop
  | .single _, .scalar _ => True
  | .multi xs, .branched _ => xs.length = nOut
  | _, _ => False

/-- The linear modules held by one element of `self.layers`. -/
def pLinears : PLayer → List Linear
  | .shared l => [l]
  | .par fs => fs

/-- `layer_sizes[-2]` of a plain `Nat` size list (same recursion as
`penultD`). -/
def penultN : List Nat → Nat
  | [a, _] => a
  | _ :: b :: c :: rest => penultN (b :: c :: rest)
  | [a] => a
  | [] => 0

/-- The linears a `PFNN` would build along an all-scalar size list: same
consecutive pairs as `fnnBuild`, but through `make_linear` (positional
third argument). -/
def fnnPBuild (w : Nat → Nat → Nat → ℚ) (cfg : DType) : Nat → List Nat → List Linear
  | k, a :: b :: rest => mkLin w cfg k a b :: fnnPBuild w cfg (k + 1) (b :: rest)
  | _, _ => []

/-- A parameter access during forward evaluation, made explicit as a state
transformer: the layer's parameters are read, never written, so the layer
comes back unchanged. -/
def Linear.applySt (l : Linear) (x : List ℚ) : List ℚ × Linear :=
  (l.apply x, l)

/-- One hidden-layer step of `FNN.forward` with the store threaded. -/
def fnnStepSt (σ : ℚ → ℚ) (acc : List ℚ × List Linear) (m : Linear) :
    List ℚ × List Linear :=
  ((m.applySt acc.1).1.map σ, acc.2 ++ [(m.applySt acc.1).2])

/-- `FNN.forward` with the parameter store threaded through every layer
access; the second component is the state of `self.linears` after the
call. -/
def FNN.forwardSt (σ : ℚ → ℚ) (net : List Linear)
    (it : Option (List ℚ → List ℚ)) (ot : Option (List ℚ → List ℚ → List ℚ))
    (inputs : List ℚ) : Option (List ℚ) × List Linear :=
  match net.getLast? with
  | none => (none, net)
  | some l =>
      let hid := net.dropLast.foldl (fnnStepSt σ) (inTrans it inputs, [])
      let yl := l.applySt hid.1
      (some (outTrans ot inputs yl.1), hid.2 ++ [yl.2])

/-- Per-branch applications `[f(x_) for f, x_ in zip(fs, xs)]` with the
sub-layer store threaded; sub-layers beyond the zip are never touched. -/
def parApplySt (fs : List Linear) (xs : List (List ℚ)) : List (List ℚ) × List Linear :=
  match fs, xs with
  | f :: fs2, x :: xs2 =>
      let yf := f.applySt x
      let rest := parApplySt fs2 xs2
      (yf.1 :: rest.1, yf.2 :: rest.2)
  | fs, _ => ([], fs)

/-- Per-branch applications `[f(x) for f in fs]` of one shared input, with
the sub-layer store threaded. -/
def parApplyAll (fs : List Linear) (v : List ℚ) : List (List ℚ) × List Linear :=
  match fs with
  | [] => ([], [])
  | f :: fs2 =>
      let yf := f.applySt v
      let rest := parApplyAll fs2 v
      (yf.1 :: rest.1, yf.2 :: rest.2)

/-- One hidden iteration of `PFNN.forward` with the layer store threaded. -/
def pstepSt (σ : ℚ → ℚ) : PLayer → PVal → Option PVal × PLayer
  | .par fs, .multi xs =>
      let r := parApplySt fs xs
      (some (.multi (r.1.map (List.map σ))), .par r.2)
  | .par fs, .single v =>
      let r := parApplyAll fs v
      (some (.multi (r.1.map (List.map σ))), .par r.2)
  | .shared l, .single v =>
      let yl := l.applySt v
      (some (.single (yl.1.map σ)), .shared yl.2)
  | .shared l, .multi _ => (none, .shared l)

/-- One hidden-layer step of `PFNN.forward` with the store threaded; once a
`none` (an exception) occurred it propagates and later layers are left
untouched. -/
def pfnnAccSt (σ : ℚ → ℚ) (acc : Option PVal × List PLayer) (L : PLayer) :
    Option PVal × List PLayer :=
  match acc.1 with
  | none => (none, acc.2 ++ [L])
  | some v => ((pstepSt σ L v).1, acc.2 ++ [(pstepSt σ L v).2])

/-- `PFNN.forward` with the layer store threaded through every parameter
access; the second component is the state of `self.layers` after the
call. -/
def PFNN.forwardSt (σ : ℚ → ℚ) (layers : List PLayer)
    (it : Option (List ℚ → List ℚ)) (ot : Option (List ℚ → List ℚ → List ℚ))
    (inputs : List ℚ) : Option (List ℚ) × List PLayer :=
  match layers.getLast? with
  | none => (none, layers)
  | some lastL =>
      let hid := layers.dropLast.foldl (pfnnAccSt σ)
        (some (.single (inTrans it inputs)), [])
      match hid.1 with
      | none => (none, hid.2 ++ [lastL])
      | some xF =>
          match lastL, xF with
          | .par fs, .multi xs =>
              let r := parApplySt fs xs
              ((torchCat r.1).map (outTrans ot inputs), hid.2 ++ [.par r.2])
          | .shared l, .single v =>
              let yl := l.applySt v
              (some (outTrans ot inputs yl.1), hid.2 ++ [.shared yl.2])
          | L2, _ => (none, hid.2 ++ [L2])

theorem fnnBuild_length (w : Nat → Nat → Nat → ℚ) (cfg : DType) :
    ∀ (k : Nat) (sizes : List Nat), (fnnBuild w cfg k sizes).length = sizes.length - 1
  | _, [] => rfl
  | _, [_] => rfl
  | k, a :: b :: rest => by
      have ih := fnnBuild_length w cfg (k + 1) (b :: rest)
      simp only [fnnBuild, List.length_cons] at ih ⊢
      omega

theorem lastApply_eq_spec (σ : ℚ → ℚ) :
    ∀ (rest : List Linear) (l : Linear) (x : List ℚ),
      lastApply σ (l :: rest) x = some (specFNN σ (l :: rest) x)
  | [], l, x => rfl
  | m :: rest, l, x => by
      have ih := lastApply_eq_spec σ rest m ((l.apply x).map σ)
      simp only [lastApply, List.getLast?_cons_cons, List.dropLast_cons₂, List.foldl_cons] at ih ⊢
      simpa [specFNN] using ih

theorem fnn_forward_nonempty (σ : ℚ → ℚ) (l : Linear) (rest : List Linear)
    (it : Option (List ℚ → List ℚ)) (ot : Option (List ℚ → List ℚ → List ℚ))
    (inputs : List ℚ) :
    FNN.forward σ (l :: rest) it ot inputs =
      some (outTrans ot inputs (specFNN σ (l :: rest) (inTrans it inputs))) := by
  simp [FNN.forward, lastApply_eq_spec]

/-- C1: forward evaluation of an `FNN` built from a valid size sequence first
applies the optional input transform, then linear-plus-activation for every
layer but the last, then the last linear unactivated, and finally the
optional output transform, which receives the original inputs together with
the network output (this is the content of `inTrans`, `specFNN` and
`outTrans`). -/
theorem c1_fnn_forward_order (w : Nat → Nat → Nat → ℚ) (cfg : DType) (σ : ℚ → ℚ)
    (sizes : List Nat) (h : 2 ≤ sizes.length)
    (it : Option (List ℚ → List ℚ)) (ot : Option (List ℚ → List ℚ → List ℚ))
    (inputs : List ℚ) :
    FNN.forward σ (FNN.initialize_layers w cfg sizes) it ot inputs =
      some (outTrans ot inputs
        (specFNN σ (FNN.initialize_layers w cfg sizes) (inTrans it inputs))) := by
  have hlen : 1 ≤ (FNN.initialize_layers w cfg sizes).length := by
    unfold FNN.initialize_layers
    rw [fnnBuild_length]
    omega
  obtain ⟨l, rest, hnet⟩ : ∃ l rest, FNN.initialize_layers w cfg sizes = l :: rest := by
    cases hn : FNN.initialize_layers w cfg sizes with
    | nil => rw [hn] at hlen; simp at hlen
    | cons l rest => exact ⟨l, rest, rfl⟩
  rw [hnet]
  exact fnn_forward_nonempty σ l rest it ot inputs

/-- Witness for C1 at the concrete size sequence `[1, 1]`. -/
theorem c1_fnn_forward_order_witness :
    2 ≤ ([1, 1] : List Nat).length ∧
      FNN.forward (fun q => q * q) (FNN.initialize_layers (fun _ _ _ => 1) .float64 [1, 1])
          none none [3] =
        some (outTrans none [3]
          (specFNN (fun q => q * q) (FNN.initialize_layers (fun _ _ _ => 1) .float64 [1, 1])
            (inTrans none [3]))) :=
  ⟨by decide,
    c1_fnn_forward_order (fun _ _ _ => 1) .float64 (fun q => q * q) [1, 1] (by decide)
      none none [3]⟩

theorem interiorPairs_length :
    ∀ ls : List LayerSize, (interiorPairs ls).length = ls.length - 2
  | [] => rfl
  | [_] => rfl
  | [_, _] => rfl
  | a :: b :: c :: rest => by
      have ih := interiorPairs_length (b :: c :: rest)
      simp only [interiorPairs, List.length_cons] at ih ⊢
      omega

theorem interiorPairs_getElem? :
    ∀ (ls : List LayerSize) (k : Nat) (a b : LayerSize),
      ls[k]? = some a → ls[k + 1]? = some b → k + 2 < ls.length →
      (interiorPairs ls)[k]? = some (a, b)
  | [], k, a, b, ha, _, hlen => by simp at ha
  | [x], k, a, b, ha, hb, hlen => by simp at hlen
  | [x, y], k, a, b, ha, hb, hlen => by simp at hlen
  | x :: y :: z :: rest, 0, a, b, ha, hb, hlen => by
      simp only [List.getElem?_cons_zero] at ha
      simp only [List.getElem?_cons_succ, List.getElem?_cons_zero] at hb
      obtain rfl : x = a := Option.some.inj ha
      obtain rfl : y = b := Option.some.inj hb
      simp [interiorPairs]
  | x :: y :: z :: rest, k + 1, a, b, ha, hb, hlen => by
      rw [List.getElem?_cons_succ] at ha hb
      have ih := interiorPairs_getElem? (y :: z :: rest) k a b ha hb
        (by simp only [List.length_cons] at hlen ⊢; omega)
      simpa [interiorPairs] using ih

theorem interiorPairs_getElem?_rev :
    ∀ (ls : List LayerSize) (k : Nat) (pq : LayerSize × LayerSize),
      (interiorPairs ls)[k]? = some pq →
      ls[k]? = some pq.1 ∧ ls[k + 1]? = some pq.2
  | [], k, pq, h => by simp [interiorPairs] at h
  | [x], k, pq, h => by simp [interiorPairs] at h
  | [x, y], k, pq, h => by simp [interiorPairs] at h
  | x :: y :: z :: rest, 0, pq, h => by
      simp only [interiorPairs, List.getElem?_cons_zero, Option.some.injEq] at h
      simp [← h]
  | x :: y :: z :: rest, k + 1, pq, h => by
      simp only [interiorPairs, List.getElem?_cons_succ] at h
      have ih := interiorPairs_getElem?_rev (y :: z :: rest) k pq h
      simpa using ih

theorem penultD_snd_mem :
    ∀ (a b c : LayerSize) (rest : List LayerSize),
      ∃ p, (p, penultD (a :: b :: c :: rest)) ∈ interiorPairs (a :: b :: c :: rest)
  | a, b, c, [] => ⟨a, by simp [penultD, interiorPairs]⟩
  | a, b, c, d :: rest => by
      obtain ⟨p, hp⟩ := penultD_snd_mem b c d rest
      exact ⟨p, by
        simp only [penultD, interiorPairs]
        exact List.mem_cons_of_mem _ hp⟩

theorem dropLast_concat_getLast?_self :
    ∀ {α : Type} (l : List α) (a : α), l.getLast? = some a → l.dropLast ++ [a] = l
  | _, [x], a, h => by
      simp only [List.getLast?_singleton, Option.some.injEq] at h
      simp [h]
  | _, x :: y :: rest, a, h => by
      rw [List.getLast?_cons_cons] at h
      have ih := dropLast_concat_getLast?_self (y :: rest) a h
      simp only [List.dropLast_cons₂, List.cons_append, ih]

theorem loop_cons_ok {w : Nat → Nat → Nat → ℚ} {cfg : DType} {nOut cnt c1 : Nat}
    {pq : LayerSize × LayerSize} {L : PLayer} {ps : List (LayerSize × LayerSize)}
    (h : interiorStep w cfg nOut cnt pq = .ok (c1, L)) :
    interiorLoop w cfg nOut cnt (pq :: ps) =
      match interiorLoop w cfg nOut c1 ps with
      | .error e => .error e
      | .ok (c2, layers) => .ok (c2, L :: layers) := by
  simp [interiorLoop, h]

theorem loop_cons_err {w : Nat → Nat → Nat → ℚ} {cfg : DType} {nOut cnt : Nat}
    {pq : LayerSize × LayerSize} {e : PErr} {ps : List (LayerSize × LayerSize)}
    (h : interiorStep w cfg nOut cnt pq = .error e) :
    interiorLoop w cfg nOut cnt (pq :: ps) = .error e := by
  simp [interiorLoop, h]

theorem exOk_match_cons {L : PLayer} (r : Except PErr (Nat × List PLayer)) :
    exOk (match r with
          | .error e => (.error e : Except PErr (Nat × List PLayer))
          | .ok (c2, layers) => .ok (c2, L :: layers)) = exOk r := by
  match r with
  | .error e => rfl
  | .ok (c2, layers) => rfl

theorem loop_ok_iff (w : Nat → Nat → Nat → ℚ) (cfg : DType) (nOut : Nat) :
    ∀ (ls : List LayerSize) (cnt : Nat), headOkP nOut ls →
      exOk (interiorLoop w cfg nOut cnt (interiorPairs ls)) =
        (interiorPairs ls).all (pairOk nOut)
  | [], _, _ => rfl
  | [_], _, _ => rfl
  | [_, _], _, _ => rfl
  | a :: b :: c :: rest, cnt, h => by
      simp only [interiorPairs, List.all_cons]
      cases b with
      | scalar n =>
          cases a with
          | scalar p =>
              have hstep : interiorStep w cfg nOut cnt (LayerSize.scalar p, LayerSize.scalar n) =
                  .ok (cnt + 1, .shared (mkLin w cfg cnt p n)) := rfl
              rw [loop_cons_ok hstep, exOk_match_cons]
              have ih := loop_ok_iff w cfg nOut (LayerSize.scalar n :: c :: rest) (cnt + 1)
                (by trivial)
              simp only [interiorPairs] at ih
              rw [ih]
              simp [pairOk, LayerSize.isInt]
          | branched bs =>
              have hstep : interiorStep w cfg nOut cnt (LayerSize.branched bs, LayerSize.scalar n) =
                  .error .rejoin := rfl
              rw [loop_cons_err hstep]
              simp [exOk, pairOk, LayerSize.isInt]
      | branched cs =>
          by_cases hlen : cs.length = nOut
          · have hhead : headOkP nOut (LayerSize.branched cs :: c :: rest) := by
              simpa [headOkP] using hlen
            have ih := loop_ok_iff w cfg nOut (LayerSize.branched cs :: c :: rest) (cnt + nOut)
              hhead
            simp only [interiorPairs] at ih
            cases a with
            | scalar p =>
                have hstep : interiorStep w cfg nOut cnt
                    (LayerSize.scalar p, LayerSize.branched cs) =
                    .ok (cnt + nOut, .par ((List.range nOut).map fun j =>
                      mkLin w cfg (cnt + j) p (cs.getD j 0))) := by
                  simp [interiorStep, hlen]
                rw [loop_cons_ok hstep, exOk_match_cons, ih]
                simp [pairOk, hlen]
            | branched ps =>
                have hps : ps.length = nOut := by
                  simpa [headOkP] using h
                have hstep : interiorStep w cfg nOut cnt
                    (LayerSize.branched ps, LayerSize.branched cs) =
                    .ok (cnt + nOut, .par ((List.range nOut).map fun j =>
                      mkLin w cfg (cnt + j) (ps.getD j 0) (cs.getD j 0))) := by
                  simp [interiorStep, hlen, hps.ge]
                rw [loop_cons_ok hstep, exOk_match_cons, ih]
                simp [pairOk, hlen]
          · have hstep : interiorStep w cfg nOut cnt (a, LayerSize.branched cs) =
                .error .subLayerCount := by
              cases a <;> simp [interiorStep, hlen]
            rw [loop_cons_err hstep]
            simp [exOk, pairOk, hlen]

theorem mkLin_fields (w : Nat → Nat → Nat → ℚ) (cfg : DType) (idx a b : Nat) :
    (mkLin w cfg idx a b).inF = a ∧ (mkLin w cfg idx a b).outF = b ∧
      (mkLin w cfg idx a b).dtype = defaultDtype ∧ (mkLin w cfg idx a b).hasBias = true :=
  ⟨rfl, rfl, rfl, rfl⟩

theorem parLayer_spec (w : Nat → Nat → Nat → ℚ) (cfg : DType) (nOut cnt : Nat)
    (ins outs : Nat → Nat) (j : Nat) (hj : j < nOut) :
    ((List.range nOut).map fun i => mkLin w cfg (cnt + i) (ins i) (outs i))[j]? =
      some (mkLin w cfg (cnt + j) (ins j) (outs j)) := by
  rw [List.getElem?_map, List.getElem?_range hj]
  rfl

theorem loop_ok_spec (w : Nat → Nat → Nat → ℚ) (cfg : DType) (nOut : Nat) :
    ∀ (ls : List LayerSize) (cnt cnt2 : Nat) (layers : List PLayer), headOkP nOut ls →
      interiorLoop w cfg nOut cnt (interiorPairs ls) = .ok (cnt2, layers) →
      List.Forall₂ (fun pq L => transitionSpec nOut pq.1 pq.2 L) (interiorPairs ls) layers
  | [], cnt, cnt2, layers, _, he => by
      simp only [interiorPairs, interiorLoop] at he ⊢
      cases he
      exact List.Forall₂.nil
  | [_], cnt, cnt2, layers, _, he => by
      simp only [interiorPairs, interiorLoop] at he ⊢
      cases he
      exact List.Forall₂.nil
  | [_, _], cnt, cnt2, layers, _, he => by
      simp only [interiorPairs, interiorLoop] at he ⊢
      cases he
      exact List.Forall₂.nil
  | a :: b :: c :: rest, cnt, cnt2, layers, h, he => by
      simp only [interiorPairs] at he ⊢
      cases b with
      | scalar n =>
          cases a with
          | scalar p =>
              have hstep : interiorStep w cfg nOut cnt (LayerSize.scalar p, LayerSize.scalar n) =
                  .ok (cnt + 1, .shared (mkLin w cfg cnt p n)) := rfl
              rw [loop_cons_ok hstep] at he
              cases hrec : interiorLoop w cfg nOut (cnt + 1) (interiorPairs
                  (LayerSize.scalar n :: c :: rest)) with
              | error e => rw [hrec] at he; cases he
              | ok pr =>
                  obtain ⟨c2, layers2⟩ := pr
                  rw [hrec] at he
                  cases he
                  refine List.Forall₂.cons ⟨rfl, rfl⟩ ?_
                  exact loop_ok_spec w cfg nOut (LayerSize.scalar n :: c :: rest) (cnt + 1)
                    _ _ (by trivial) hrec
          | branched bs =>
              have hstep : interiorStep w cfg nOut cnt (LayerSize.branched bs, LayerSize.scalar n) =
                  .error .rejoin := rfl
              rw [loop_cons_err hstep] at he
              cases he
      | branched cs =>
          by_cases hlen : cs.length = nOut
          · cases a with
            | scalar p =>
                have hstep : interiorStep w cfg nOut cnt
                    (LayerSize.scalar p, LayerSize.branched cs) =
                    .ok (cnt + nOut, .par ((List.range nOut).map fun j =>
                      mkLin w cfg (cnt + j) p (cs.getD j 0))) := by
                  simp [interiorStep, hlen]
                rw [loop_cons_ok hstep] at he
                cases hrec : interiorLoop w cfg nOut (cnt + nOut) (interiorPairs
                    (LayerSize.branched cs :: c :: rest)) with
                | error e => rw [hrec] at he; cases he
                | ok pr =>
                    obtain ⟨c2, layers2⟩ := pr
                    rw [hrec] at he
                    cases he
                    refine List.Forall₂.cons ⟨by simp, ?_⟩ ?_
                    · intro j hj
                      exact ⟨mkLin w cfg (cnt + j) p (cs.getD j 0),
                        parLayer_spec w cfg nOut cnt (fun _ => p) (fun i => cs.getD i 0) j hj,
                        rfl, rfl⟩
                    · exact loop_ok_spec w cfg nOut (LayerSize.branched cs :: c :: rest)
                        (cnt + nOut) _ _ (by simpa [headOkP] using hlen) hrec
            | branched ps =>
                have hps : ps.length = nOut := by simpa [headOkP] using h
                have hstep : interiorStep w cfg nOut cnt
                    (LayerSize.branched ps, LayerSize.branched cs) =
                    .ok (cnt + nOut, .par ((List.range nOut).map fun j =>
                      mkLin w cfg (cnt + j) (ps.getD j 0) (cs.getD j 0))) := by
                  simp [interiorStep, hlen, hps.ge]
                rw [loop_cons_ok hstep] at he
                cases hrec : interiorLoop w cfg nOut (cnt + nOut) (interiorPairs
                    (LayerSize.branched cs :: c :: rest)) with
                | error e => rw [hrec] at he; cases he
                | ok pr =>
                    obtain ⟨c2, layers2⟩ := pr
                    rw [hrec] at he
                    cases he
                    refine List.Forall₂.cons ⟨by simp, ?_⟩ ?_
                    · intro j hj
                      exact ⟨mkLin w cfg (cnt + j) (ps.getD j 0) (cs.getD j 0),
                        parLayer_spec w cfg nOut cnt (fun i => ps.getD i 0)
                          (fun i => cs.getD i 0) j hj,
                        rfl, rfl⟩
                    · exact loop_ok_spec w cfg nOut (LayerSize.branched cs :: c :: rest)
                        (cnt + nOut) _ _ (by simpa [headOkP] using hlen) hrec
          · have hstep : interiorStep w cfg nOut cnt (a, LayerSize.branched cs) =
                .error .subLayerCount := by
              cases a <;> simp [interiorStep, hlen]
            rw [loop_cons_err hstep] at he
            cases he

theorem pfnnHidden_cons_some {σ : ℚ → ℚ} {L : PLayer} {layers : List PLayer}
    {x x1 : PVal} (h : pstep σ L x = some x1) :
    pfnnHidden σ (L :: layers) x = pfnnHidden σ layers x1 := by
  simp [pfnnHidden, h]

theorem loop_forward (w : Nat → Nat → Nat → ℚ) (cfg : DType) (σ : ℚ → ℚ) (nOut : Nat) :
    ∀ (ls : List LayerSize) (cnt cnt2 : Nat) (layers : List PLayer) (x : PVal),
      headOkP nOut ls →
      interiorLoop w cfg nOut cnt (interiorPairs ls) = .ok (cnt2, layers) →
      valShape nOut x (ls.headD (.scalar 0)) →
      ∃ xF, pfnnHidden σ layers x = some xF ∧ valShape nOut xF (penultD ls)
  | [], cnt, cnt2, layers, x, _, he, hx => by
      simp only [interiorPairs, interiorLoop] at he
      cases he
      exact ⟨x, rfl, hx⟩
  | [_], cnt, cnt2, layers, x, _, he, hx => by
      simp only [interiorPairs, interiorLoop] at he
      cases he
      exact ⟨x, rfl, hx⟩
  | [_, _], cnt, cnt2, layers, x, _, he, hx => by
      simp only [interiorPairs, interiorLoop] at he
      cases he
      exact ⟨x, rfl, hx⟩
  | a :: b :: c :: rest, cnt, cnt2, layers, x, h, he, hx => by
      simp only [interiorPairs] at he
      have hpen : penultD (a :: b :: c :: rest) = penultD (b :: c :: rest) := rfl
      cases b with
      | scalar n =>
          cases a with
          | scalar p =>
              cases x with
              | multi xs => exact absurd hx (by simp [valShape])
              | single v =>
                  have hstep : interiorStep w cfg nOut cnt
                      (LayerSize.scalar p, LayerSize.scalar n) =
                      .ok (cnt + 1, .shared (mkLin w cfg cnt p n)) := rfl
                  rw [loop_cons_ok hstep] at he
                  cases hrec : interiorLoop w cfg nOut (cnt + 1) (interiorPairs
                      (LayerSize.scalar n :: c :: rest)) with
                  | error e => rw [hrec] at he; cases he
                  | ok pr =>
                      obtain ⟨c2, layers2⟩ := pr
                      rw [hrec] at he
                      cases he
                      have hps : pstep σ (.shared (mkLin w cfg cnt p n)) (.single v) =
                          some (.single (((mkLin w cfg cnt p n).apply v).map σ)) := rfl
                      rw [hpen, pfnnHidden_cons_some hps]
                      exact loop_forward w cfg σ nOut (LayerSize.scalar n :: c :: rest)
                        (cnt + 1) _ _ _ (by trivial) hrec (by trivial)
          | branched bs =>
              have hstep : interiorStep w cfg nOut cnt
                  (LayerSize.branched bs, LayerSize.scalar n) = .error .rejoin := rfl
              rw [loop_cons_err hstep] at he
              cases he
      | branched cs =>
          by_cases hlen : cs.length = nOut
          · cases a with
            | scalar p =>
                cases x with
                | multi xs => exact absurd hx (by simp [valShape])
                | single v =>
                    have hstep : interiorStep w cfg nOut cnt
                        (LayerSize.scalar p, LayerSize.branched cs) =
                        .ok (cnt + nOut, .par ((List.range nOut).map fun j =>
                          mkLin w cfg (cnt + j) p (cs.getD j 0))) := by
                      simp [interiorStep, hlen]
                    rw [loop_cons_ok hstep] at he
                    cases hrec : interiorLoop w cfg nOut (cnt + nOut) (interiorPairs
                        (LayerSize.branched cs :: c :: rest)) with
                    | error e => rw [hrec] at he; cases he
                    | ok pr =>
                        obtain ⟨c2, layers2⟩ := pr
                        rw [hrec] at he
                        cases he
                        have hps : pstep σ (.par ((List.range nOut).map fun j =>
                            mkLin w cfg (cnt + j) p (cs.getD j 0))) (.single v) =
                            some (.multi (((List.range nOut).map fun j =>
                              mkLin w cfg (cnt + j) p (cs.getD j 0)).map
                                fun f => (f.apply v).map σ)) := rfl
                        rw [hpen, pfnnHidden_cons_some hps]
                        exact loop_forward w cfg σ nOut (LayerSize.branched cs :: c :: rest)
                          (cnt + nOut) _ _ _ (by simpa [headOkP] using hlen) hrec
                          (by simp [valShape])
            | branched ps =>
                cases x with
                | single v => exact absurd hx (by simp [valShape])
                | multi xs =>
                    have hxs : xs.length = nOut := hx
                    have hps2 : ps.length = nOut := by simpa [headOkP] using h
                    have hstep : interiorStep w cfg nOut cnt
                        (LayerSize.branched ps, LayerSize.branched cs) =
                        .ok (cnt + nOut, .par ((List.range nOut).map fun j =>
                          mkLin w cfg (cnt + j) (ps.getD j 0) (cs.getD j 0))) := by
                      simp [interiorStep, hlen, hps2.ge]
                    rw [loop_cons_ok hstep] at he
                    cases hrec : interiorLoop w cfg nOut (cnt + nOut) (interiorPairs
                        (LayerSize.branched cs :: c :: rest)) with
                    | error e => rw [hrec] at he; cases he
                    | ok pr =>
                        obtain ⟨c2, layers2⟩ := pr
                        rw [hrec] at he
                        cases he
                        have hps : pstep σ (.par ((List.range nOut).map fun j =>
                            mkLin w cfg (cnt + j) (ps.getD j 0) (cs.getD j 0))) (.multi xs) =
                            some (.multi (((((List.range nOut).map fun j =>
                              mkLin w cfg (cnt + j) (ps.getD j 0) (cs.getD j 0)).zip xs).map
                                fun p2 => (p2.1.apply p2.2).map σ))) := rfl
                        rw [hpen, pfnnHidden_cons_some hps]
                        exact loop_forward w cfg σ nOut (LayerSize.branched cs :: c :: rest)
                          (cnt + nOut) _ _ _ (by simpa [headOkP] using hlen) hrec
                          (by simp [valShape, hxs, hlen])
          · have hstep : interiorStep w cfg nOut cnt (a, LayerSize.branched cs) =
                .error .subLayerCount := by
              cases a <;> simp [interiorStep, hlen]
            rw [loop_cons_err hstep] at he
            cases he

theorem pfnnInit_ok_parts {w : Nat → Nat → Nat → ℚ} {cfg : DType}
    {ls : List LayerSize} {layers : List PLayer}
    (h : PFNN.initialize_layers w cfg ls = .ok layers) :
    1 < ls.length ∧
    (∃ n0, ls.head? = some (.scalar n0)) ∧
    (∃ nN, ls.getLast? = some (.scalar nN)) ∧
    ∃ cnt hidden out,
      interiorLoop w cfg (nOutOf ls) 0 (interiorPairs ls) = .ok (cnt, hidden) ∧
      outputStage w cfg (nOutOf ls) cnt (penultD ls) = .ok out ∧
      layers = hidden ++ [out] := by
  unfold PFNN.initialize_layers at h
  split at h
  · cases h
  next hlen =>
    have hlen2 : 1 < ls.length := by omega
    have hne : ls ≠ [] := by
      cases ls with
      | nil => simp at hlen2
      | cons a tl => simp
    split at h
    · cases h
    next hnotbr =>
      obtain ⟨a, ha⟩ : ∃ a, ls.head? = some a := by
        cases ls with
        | nil => simp at hlen2
        | cons a tl => exact ⟨a, rfl⟩
      have ha2 : ∃ n0, ls.head? = some (.scalar n0) := by
        cases a with
        | scalar n0 => exact ⟨n0, ha⟩
        | branched bs => exact absurd ha (by intro hc; exact hnotbr bs hc)
      split at h
      · cases h
      next hnotbr2 =>
        obtain ⟨aN, haN⟩ : ∃ aN, ls.getLast? = some aN := by
          cases hg : ls.getLast? with
          | none => exact absurd (List.getLast?_isSome.mpr hne) (by simp [hg])
          | some v => exact ⟨v, rfl⟩
        have haN2 : ∃ nN, ls.getLast? = some (.scalar nN) := by
          cases aN with
          | scalar nN => exact ⟨nN, haN⟩
          | branched bs => exact absurd haN (by intro hc; exact hnotbr2 bs hc)
        split at h
        · cases h
        next cnt hidden hloop =>
          split at h
          · cases h
          next out hout =>
            cases h
            exact ⟨hlen2, ha2, haN2, cnt, hidden, out, hloop, hout, rfl⟩

theorem valid_of_pfnnInit_ok {w : Nat → Nat → Nat → ℚ} {cfg : DType}
    {ls : List LayerSize} {layers : List PLayer}
    (h : PFNN.initialize_layers w cfg ls = .ok layers) :
    validSizes ls = true := by
  obtain ⟨hlen, ⟨n0, hhead⟩, ⟨nN, hlast⟩, cnt, hidden, out, hloop, hout, hlay⟩ :=
    pfnnInit_ok_parts h
  have hok : headOkP (nOutOf ls) ls := by simp [headOkP, hhead]
  have hiff := loop_ok_iff w cfg (nOutOf ls) ls 0 hok
  rw [hloop] at hiff
  simp only [exOk] at hiff
  simp [validSizes, hhead, hlast, hlen, ← hiff]

theorem pfnnInit_ok_of_valid (w : Nat → Nat → Nat → ℚ) (cfg : DType)
    (ls : List LayerSize) (hv : validSizes ls = true) :
    exOk (PFNN.initialize_layers w cfg ls) = true := by
  cases ls with
  | nil => simp [validSizes] at hv
  | cons a tl =>
    cases tl with
    | nil => simp [validSizes] at hv
    | cons b tl2 =>
      simp only [validSizes, Bool.and_eq_true, decide_eq_true_eq] at hv
      obtain ⟨⟨⟨hlen, hhead⟩, hlast⟩, hall⟩ := hv
      cases a with
      | branched bs => simp at hhead
      | scalar n0 =>
        have hnle : ¬ ((LayerSize.scalar n0 :: b :: tl2).length ≤ 1) := by
          simp
        obtain ⟨nN, hlastN⟩ : ∃ nN,
            (LayerSize.scalar n0 :: b :: tl2).getLast? = some (.scalar nN) := by
          cases hg : (LayerSize.scalar n0 :: b :: tl2).getLast? with
          | none => simp [hg] at hlast
          | some v =>
            cases v with
            | scalar nN => exact ⟨nN, rfl⟩
            | branched bs => rw [hg] at hlast; simp at hlast
        have hok : headOkP (nOutOf (LayerSize.scalar n0 :: b :: tl2))
            (LayerSize.scalar n0 :: b :: tl2) := by simp [headOkP]
        have hiff := loop_ok_iff w cfg (nOutOf (LayerSize.scalar n0 :: b :: tl2))
          (LayerSize.scalar n0 :: b :: tl2) 0 hok
        rw [hall] at hiff
        obtain ⟨pr, hloop⟩ : ∃ pr, interiorLoop w cfg
            (nOutOf (LayerSize.scalar n0 :: b :: tl2)) 0
            (interiorPairs (LayerSize.scalar n0 :: b :: tl2)) = .ok pr := by
          cases hr : interiorLoop w cfg (nOutOf (LayerSize.scalar n0 :: b :: tl2)) 0
              (interiorPairs (LayerSize.scalar n0 :: b :: tl2)) with
          | error e => rw [hr] at hiff; simp [exOk] at hiff
          | ok pr => exact ⟨pr, rfl⟩
        obtain ⟨cnt, hidden⟩ := pr
        have hstageOk : ∃ out, outputStage w cfg
            (nOutOf (LayerSize.scalar n0 :: b :: tl2)) cnt
            (penultD (LayerSize.scalar n0 :: b :: tl2)) = .ok out := by
          cases hpen : penultD (LayerSize.scalar n0 :: b :: tl2) with
          | scalar p => exact ⟨_, rfl⟩
          | branched bs =>
            cases tl2 with
            | nil => simp [penultD] at hpen
            | cons c rest =>
              obtain ⟨p, hmem⟩ := penultD_snd_mem (LayerSize.scalar n0) b c rest
              rw [hpen] at hmem
              have hplen : pairOk (nOutOf (LayerSize.scalar n0 :: b :: c :: rest))
                  (p, LayerSize.branched bs) = true :=
                (List.all_eq_true.mp hall) _ hmem
              have hble : bs.length = nOutOf (LayerSize.scalar n0 :: b :: c :: rest) := by
                simpa [pairOk] using hplen
              exact ⟨.par ((List.range (nOutOf (LayerSize.scalar n0 :: b :: c :: rest))).map
                  fun j => mkLin w cfg (cnt + j) (bs.getD j 0) 1),
                by simp [outputStage, hble.ge]⟩
        obtain ⟨out, hout⟩ := hstageOk
        simp [PFNN.initialize_layers, if_neg hnle, hlastN, hloop, hout, exOk]

theorem pfnnInit_ok_iff (w : Nat → Nat → Nat → ℚ) (cfg : DType) (ls : List LayerSize) :
    exOk (PFNN.initialize_layers w cfg ls) = validSizes ls := by
  cases hv : validSizes ls with
  | true => exact pfnnInit_ok_of_valid w cfg ls hv
  | false =>
    cases hres : PFNN.initialize_layers w cfg ls with
    | error e => rfl
    | ok layers => rw [valid_of_pfnnInit_ok hres] at hv; cases hv

theorem getElem?_of_mem_ls {α : Type} {ls : List α} {a : α} (h : a ∈ ls) :
    ∃ i : Nat, ls[i]? = some a := by
  obtain ⟨i, hi, he⟩ := List.mem_iff_getElem.mp h
  exact ⟨i, by rw [List.getElem?_eq_getElem hi]; exact congrArg some he⟩

theorem allBranchedOk_of_valid {ls : List LayerSize} (hv : validSizes ls = true) :
    allBranchedOk ls = true := by
  simp only [validSizes, Bool.and_eq_true, decide_eq_true_eq] at hv
  obtain ⟨⟨⟨hlen, hhead⟩, hlast⟩, hall⟩ := hv
  rw [allBranchedOk, List.all_eq_true]
  intro e he
  cases e with
  | scalar n => rfl
  | branched bs =>
    obtain ⟨i, hi⟩ := getElem?_of_mem_ls he
    have hi_lt : i < ls.length := by
      by_contra hge
      rw [List.getElem?_eq_none (by omega)] at hi
      cases hi
    have hi0 : i ≠ 0 := by
      intro h0
      subst h0
      rw [← List.head?_eq_getElem? ls] at hi
      rw [hi] at hhead
      simp at hhead
    have hiN : i ≠ ls.length - 1 := by
      intro hN
      subst hN
      rw [← List.getLast?_eq_getElem? ls] at hi
      rw [hi] at hlast
      simp at hlast
    obtain ⟨prev, hprev⟩ : ∃ prev, ls[i - 1]? = some prev :=
      ⟨_, List.getElem?_eq_getElem (by omega)⟩
    have hpair := interiorPairs_getElem? ls (i - 1) prev (.branched bs) hprev
      (by rw [Nat.sub_add_cancel (by omega)]; exact hi) (by omega)
    have hok := (List.all_eq_true.mp hall) _ (List.getElem?_mem hpair)
    simpa [pairOk] using hok

theorem valid_of_parts {ls : List LayerSize}
    (hlen : 1 < ls.length) (hhead : ∃ n0, ls.head? = some (.scalar n0))
    (hlast : ∃ nN, ls.getLast? = some (.scalar nN))
    (hnr : noRejoinB ls = true) (hbr : allBranchedOk ls = true) :
    validSizes ls = true := by
  obtain ⟨n0, hh⟩ := hhead
  obtain ⟨nN, hN⟩ := hlast
  simp only [validSizes, Bool.and_eq_true, decide_eq_true_eq, hh, hN]
  refine ⟨⟨⟨hlen, by trivial⟩, by trivial⟩, ?_⟩
  rw [List.all_eq_true]
  intro pq hpq
  obtain ⟨k, hk⟩ := getElem?_of_mem_ls hpq
  obtain ⟨h1, h2⟩ := interiorPairs_getElem?_rev ls k pq hk
  obtain ⟨prev, curr⟩ := pq
  cases curr with
  | branched cs =>
    have := (List.all_eq_true.mp hbr) _ (List.getElem?_mem h2)
    simpa [pairOk, allBranchedOk] using this
  | scalar n =>
    have hthis := (List.all_eq_true.mp hnr) _ hpq
    cases prev with
    | scalar p => rfl
    | branched ps => simp [noRejoinB] at hthis

/-- C4: a branched interior entry immediately followed by a scalar interior
entry makes `PFNN` construction fail (the "cannot rejoin parallel
subnetworks after splitting" assertion, or an earlier assertion); the final
scalar output entry is excluded by the bound `i + 1 ≤ ls.length - 2`. -/
theorem c4_rejoin_rejected (w : Nat → Nat → Nat → ℚ) (cfg : DType)
    (ls : List LayerSize) (i : Nat) (bs : List Nat) (c : Nat)
    (hi : 1 ≤ i) (hbound : i + 1 ≤ ls.length - 2)
    (hbr : ls[i]? = some (.branched bs)) (hsc : ls[i + 1]? = some (.scalar c)) :
    exOk (PFNN.initialize_layers w cfg ls) = false := by
  cases hres : exOk (PFNN.initialize_layers w cfg ls) with
  | false => rfl
  | true =>
    exfalso
    rw [pfnnInit_ok_iff] at hres
    have hall : (interiorPairs ls).all (pairOk (nOutOf ls)) = true := by
      simp only [validSizes, Bool.and_eq_true] at hres
      exact hres.2
    have hpair := interiorPairs_getElem? ls i (.branched bs) (.scalar c) hbr hsc (by omega)
    have hok := (List.all_eq_true.mp hall) _ (List.getElem?_mem hpair)
    simp [pairOk, LayerSize.isInt] at hok

/-- Witness for C4 at the sequence `[1, [1], 5, 1]` (branched interior entry
followed by a scalar interior entry). -/
theorem c4_rejoin_rejected_witness :
    exOk (PFNN.initialize_layers (fun _ _ _ => 0) .float64
      [.scalar 1, .branched [1], .scalar 5, .scalar 1]) = false :=
  c4_rejoin_rejected (fun _ _ _ => 0) .float64
    [.scalar 1, .branched [1], .scalar 5, .scalar 1] 1 [1] 5
    (by decide) (by decide) (by decide) (by decide)

/-- C5: a branched entry whose length differs from the output count makes
construction fail; and, for sequences satisfying the other construction
constraints (length, integer endpoints, no branched-to-scalar rejoin),
construction succeeds exactly when every branched entry has as many
sub-sizes as there are outputs. -/
theorem c5_sublayer_count (w : Nat → Nat → Nat → ℚ) (cfg : DType) (ls : List LayerSize) :
    (allBranchedOk ls = false → exOk (PFNN.initialize_layers w cfg ls) = false) ∧
    (1 < ls.length → (∃ n0, ls.head? = some (.scalar n0)) →
      (∃ nN, ls.getLast? = some (.scalar nN)) → noRejoinB ls = true →
      (exOk (PFNN.initialize_layers w cfg ls) = true ↔ allBranchedOk ls = true)) := by
  constructor
  · intro hbad
    cases hres : exOk (PFNN.initialize_layers w cfg ls) with
    | false => rfl
    | true =>
      rw [pfnnInit_ok_iff] at hres
      rw [allBranchedOk_of_valid hres] at hbad
      cases hbad
  · intro hlen hhead hlast hnr
    constructor
    · intro hres
      rw [pfnnInit_ok_iff] at hres
      exact allBranchedOk_of_valid hres
    · intro hbr
      rw [pfnnInit_ok_iff]
      exact valid_of_parts hlen hhead hlast hnr hbr

/-- Witness for C5: at `[1, [2, 2], 1]` a branched entry of length 2 with a
single output makes construction fail; at `[1, [1], 1]` the lengths match and
construction succeeds. -/
theorem c5_sublayer_count_witness :
    exOk (PFNN.initialize_layers (fun _ _ _ => 0) .float64
        [.scalar 1, .branched [2, 2], .scalar 1]) = false ∧
      exOk (PFNN.initialize_layers (fun _ _ _ => 0) .float64
        [.scalar 1, .branched [1], .scalar 1]) = true :=
  ⟨(c5_sublayer_count (fun _ _ _ => 0) .float64
      [.scalar 1, .branched [2, 2], .scalar 1]).1 (by decide),
    ((c5_sublayer_count (fun _ _ _ => 0) .float64
      [.scalar 1, .branched [1], .scalar 1]).2 (by decide) ⟨1, by decide⟩ ⟨1, by decide⟩
      (by decide)).mpr (by decide)⟩

/-- C6 counterexample: an `FNN` built from the single-entry size list `[5]`
constructs successfully (its `initialize_layers` contains no assertion and
produces an empty layer list), and the failure only happens later, at
forward evaluation — contradicting the claim that for both variants fewer
than two sizes raise an assertion error during construction. -/
theorem c6_counterexample :
    FNN.initialize_layers (fun _ _ _ => 0) .float64 [5] = [] ∧
      FNN.forward (fun q => q) (FNN.initialize_layers (fun _ _ _ => 0) .float64 [5])
        none none [1, 1, 1, 1, 1] = none :=
  ⟨rfl, rfl⟩

/-- C6 amended: `PFNN` validates its size list at construction time (fewer
than two sizes, a non-integer first entry, or a non-integer last entry all
fail the assertions), whereas `FNN` performs no construction-time
validation: with fewer than two sizes it constructs successfully and the
failure surfaces only at forward evaluation. -/
theorem c6_construction_asserts (w : Nat → Nat → Nat → ℚ) (cfg : DType)
    (ls : List LayerSize) (σ : ℚ → ℚ) (it : Option (List ℚ → List ℚ))
    (ot : Option (List ℚ → List ℚ → List ℚ)) (x : List ℚ)
    (w2 : Nat → Nat → Nat → ℚ) (cfg2 : DType) (sizes : List Nat) :
    (ls.length ≤ 1 → exOk (PFNN.initialize_layers w cfg ls) = false) ∧
    ((∃ bs, ls.head? = some (.branched bs)) →
      exOk (PFNN.initialize_layers w cfg ls) = false) ∧
    ((∃ bs, ls.getLast? = some (.branched bs)) →
      exOk (PFNN.initialize_layers w cfg ls) = false) ∧
    (sizes.length ≤ 1 →
      FNN.forward σ (FNN.initialize_layers w2 cfg2 sizes) it ot x = none) := by
  refine ⟨?_, ?_, ?_, ?_⟩
  · intro hl
    simp [PFNN.initialize_layers, if_pos hl, exOk]
  · rintro ⟨bs, hb⟩
    rw [pfnnInit_ok_iff]
    simp [validSizes, hb]
  · rintro ⟨bs, hb⟩
    rw [pfnnInit_ok_iff]
    simp [validSizes, hb]
  · intro hl
    cases sizes with
    | nil => rfl
    | cons a tl =>
      cases tl with
      | nil => rfl
      | cons b tl2 => simp at hl

/-- Witness for the amended C6 at concrete inputs. -/
theorem c6_construction_asserts_witness :
    exOk (PFNN.initialize_layers (fun _ _ _ => 0) .float64 [.scalar 3]) = false ∧
    exOk (PFNN.initialize_layers (fun _ _ _ => 0) .float64
      [.branched [1], .scalar 1]) = false ∧
    exOk (PFNN.initialize_layers (fun _ _ _ => 0) .float64
      [.scalar 1, .branched [1]]) = false ∧
    FNN.forward (fun q => q) (FNN.initialize_layers (fun _ _ _ => 0) .float64 [7])
      none none [1] = none :=
  ⟨(c6_construction_asserts (fun _ _ _ => 0) .float64 [.scalar 3] (fun q => q)
      none none [1] (fun _ _ _ => 0) .float64 [7]).1 (by decide),
    (c6_construction_asserts (fun _ _ _ => 0) .float64 [.branched [1], .scalar 1]
      (fun q => q) none none [1] (fun _ _ _ => 0) .float64 [7]).2.1 ⟨[1], by decide⟩,
    (c6_construction_asserts (fun _ _ _ => 0) .float64 [.scalar 1, .branched [1]]
      (fun q => q) none none [1] (fun _ _ _ => 0) .float64 [7]).2.2.1 ⟨[1], by decide⟩,
    (c6_construction_asserts (fun _ _ _ => 0) .float64 [.scalar 3] (fun q => q)
      none none [1] (fun _ _ _ => 0) .float64 [7]).2.2.2 (by decide)⟩

/-- C7: in a successful `PFNN` construction, the interior layers follow the
transition rules: scalar→scalar gives one shared linear `prev → curr`;
scalar→branched gives one sub-layer per output, each `prev → curr[j]`;
branched→branched gives one sub-layer per output, `prev[j] → curr[j]`
(see `transitionSpec`); there is one interior layer per interior entry plus
the output layer. -/
theorem c7_transition_rules (w : Nat → Nat → Nat → ℚ) (cfg : DType)
    (ls : List LayerSize) (layers : List PLayer)
    (h : PFNN.initialize_layers w cfg ls = .ok layers) :
    layers.length = ls.length - 1 ∧
    ∀ (k : Nat) (a b : LayerSize) (L : PLayer),
      ls[k]? = some a → ls[k + 1]? = some b → k + 2 < ls.length →
      layers[k]? = some L → transitionSpec (nOutOf ls) a b L := by
  obtain ⟨hlen, ⟨n0, hhead⟩, ⟨nN, hlast⟩, cnt, hidden, out, hloop, hout, hlay⟩ :=
    pfnnInit_ok_parts h
  have hok : headOkP (nOutOf ls) ls := by simp [headOkP, hhead]
  have hforall := loop_ok_spec w cfg (nOutOf ls) ls 0 cnt hidden hok hloop
  have hhlen : hidden.length = ls.length - 2 := by
    rw [← hforall.length_eq, interiorPairs_length]
  constructor
  · rw [hlay]
    simp only [List.length_append, List.length_cons, List.length_nil, hhlen]
    omega
  · intro k a b L hka hkb hkbound hkL
    have hklt : k < hidden.length := by omega
    have hpair := interiorPairs_getElem? ls k a b hka hkb hkbound
    have hLhid : hidden[k]? = some L := by
      rw [hlay] at hkL
      rw [← hkL, List.getElem?_append_left hklt]
    obtain ⟨hlen_eq, hget⟩ := List.forall₂_iff_get.mp hforall
    have hklt2 : k < (interiorPairs ls).length := by omega
    have hp_eq : (interiorPairs ls).get ⟨k, hklt2⟩ = (a, b) := by
      apply Option.some.inj
      rw [List.get_eq_getElem, ← List.getElem?_eq_getElem hklt2]
      exact hpair
    have hL_eq : hidden.get ⟨k, hklt⟩ = L := by
      apply Option.some.inj
      rw [List.get_eq_getElem, ← List.getElem?_eq_getElem hklt]
      exact hLhid
    have := hget k hklt2 hklt
    rw [hp_eq, hL_eq] at this
    exact this

/-- Witness for C7: the scalar→scalar transition of `[1, 1, 1]` yields the
shared linear with input and output size 1. -/
theorem c7_transition_rules_witness :
    transitionSpec 1 (.scalar 1) (.scalar 1)
      (.shared (mkLin (fun _ _ _ => 0) .float64 0 1 1)) :=
  (c7_transition_rules (fun _ _ _ => 0) .float64 [.scalar 1, .scalar 1, .scalar 1]
      [.shared (mkLin (fun _ _ _ => 0) .float64 0 1 1),
        .shared (mkLin (fun _ _ _ => 0) .float64 1 1 1)]
      (by rfl)).2 0 (.scalar 1) (.scalar 1)
    (.shared (mkLin (fun _ _ _ => 0) .float64 0 1 1))
    (by decide) (by decide) (by decide) (by decide)

theorem apply_length_mkLin (w : Nat → Nat → Nat → ℚ) (cfg : DType) (idx a b : Nat)
    (x : List ℚ) : ((mkLin w cfg idx a b).apply x).length = b := by
  simp [Linear.apply, mkLin, torchLinearPos3, initWeight, zerosVec]

theorem apply_length_kw (w : Nat → Nat → Nat → ℚ) (dt : DType) (idx a b : Nat)
    (x : List ℚ) : ((torchLinearKW w idx a b dt).apply x).length = b := by
  simp [Linear.apply, torchLinearKW, initWeight, zerosVec]

theorem getLast?_append_singleton {α : Type} (l : List α) (a : α) :
    (l ++ [a]).getLast? = some a := by
  simp

theorem dropLast_append_singleton {α : Type} (l : List α) (a : α) :
    (l ++ [a]).dropLast = l := by
  simp

theorem headD_of_head? {ls : List LayerSize} {a : LayerSize}
    (h : ls.head? = some a) : ls.headD (.scalar 0) = a := by
  cases ls with
  | nil => cases h
  | cons x tl => simpa using Option.some.inj h

theorem pfnn_forward_shape (w : Nat → Nat → Nat → ℚ) (cfg : DType) (σ : ℚ → ℚ)
    (it : Option (List ℚ → List ℚ)) (x : List ℚ)
    {ls : List LayerSize} {layers : List PLayer}
    (h : PFNN.initialize_layers w cfg ls = .ok layers) :
    (∀ p, penultD ls = .scalar p →
      ∃ l xF, layers.getLast? = some (.shared l) ∧ l.outF = nOutOf ls ∧
        pfnnHidden σ layers.dropLast (.single (inTrans it x)) = some (.single xF) ∧
        PFNN.forward σ layers it none x = some (l.apply xF) ∧
        ∀ v, (l.apply v).length = nOutOf ls) ∧
    (∀ bs, penultD ls = .branched bs →
      ∃ fs xs, layers.getLast? = some (.par fs) ∧ fs.length = nOutOf ls ∧
        (∀ f ∈ fs, f.outF = 1 ∧ ∀ v, (f.apply v).length = 1) ∧
        pfnnHidden σ layers.dropLast (.single (inTrans it x)) = some (.multi xs) ∧
        xs.length = nOutOf ls ∧
        (((fs.zip xs).map fun p => p.1.apply p.2).flatten.length = nOutOf ls) ∧
        (0 < nOutOf ls →
          PFNN.forward σ layers it none x =
            some (((fs.zip xs).map fun p => p.1.apply p.2).flatten)) ∧
        (nOutOf ls = 0 → PFNN.forward σ layers it none x = none)) := by
  obtain ⟨hlen, ⟨n0, hhead⟩, ⟨nN, hlast⟩, cnt, hidden, out, hloop, hout, hlay⟩ :=
    pfnnInit_ok_parts h
  have hok : headOkP (nOutOf ls) ls := by simp [headOkP, hhead]
  have hdrop : layers.dropLast = hidden := by
    rw [hlay, dropLast_append_singleton]
  have hlastL : layers.getLast? = some out := by
    rw [hlay, getLast?_append_singleton]
  have hshape : valShape (nOutOf ls) (.single (inTrans it x)) (ls.headD (.scalar 0)) := by
    rw [headD_of_head? hhead]
    trivial
  obtain ⟨xF, hxF, hxFshape⟩ :=
    loop_forward w cfg σ (nOutOf ls) ls 0 cnt hidden (.single (inTrans it x)) hok hloop hshape
  constructor
  · intro p hpen
    rw [hpen] at hxFshape
    cases xF with
    | multi xs => exact absurd hxFshape (by simp [valShape])
    | single v =>
      rw [hpen] at hout
      have hout2 : out = .shared (mkLin w cfg cnt p (nOutOf ls)) := by
        simpa [outputStage] using hout.symm
      refine ⟨mkLin w cfg cnt p (nOutOf ls), v, by rw [hlastL, hout2], rfl,
        by rw [hdrop]; exact hxF,
        ?_, fun v2 => apply_length_mkLin w cfg cnt p (nOutOf ls) v2⟩
      simp only [PFNN.forward, hlastL, hout2, hdrop, hxF]
      rfl
  · intro bs hpen
    rw [hpen] at hxFshape
    cases xF with
    | single v => exact absurd hxFshape (by simp [valShape])
    | multi xs =>
      have hxs : xs.length = nOutOf ls := hxFshape
      rw [hpen] at hout
      have hble : nOutOf ls ≤ bs.length := by
        by_contra hgt
        simp [outputStage, hgt] at hout
      have hout2 : out = .par ((List.range (nOutOf ls)).map fun j =>
          mkLin w cfg (cnt + j) (bs.getD j 0) 1) := by
        rw [outputStage, if_pos hble] at hout
        exact (Option.some.inj (congrArg Except.toOption hout)).symm
      set fs := (List.range (nOutOf ls)).map fun j => mkLin w cfg (cnt + j) (bs.getD j 0) 1
        with hfs
      have hfslen : fs.length = nOutOf ls := by simp [hfs]
      have hfmem : ∀ f ∈ fs, f.outF = 1 ∧ ∀ v, (f.apply v).length = 1 := by
        intro f hf
        rw [hfs] at hf
        obtain ⟨j, hj, rfl⟩ := List.mem_map.mp hf
        exact ⟨rfl, fun v => apply_length_mkLin w cfg (cnt + j) (bs.getD j 0) 1 v⟩
      have hzipLen : (fs.zip xs).length = nOutOf ls := by
        simp only [List.length_zip, hfslen, hxs, Nat.min_self]
      have hflatLen : ((fs.zip xs).map fun p => p.1.apply p.2).flatten.length = nOutOf ls := by
        rw [List.length_flatten]
        have hrep : (((fs.zip xs).map fun p => p.1.apply p.2).map List.length) =
            List.replicate (nOutOf ls) 1 := by
          rw [List.eq_replicate_iff]
          constructor
          · simp only [List.length_map]
            exact hzipLen
          · intro n hn
            obtain ⟨y, hy, rfl⟩ := List.mem_map.mp hn
            obtain ⟨q, hq, rfl⟩ := List.mem_map.mp hy
            exact (hfmem q.1 (List.of_mem_zip hq).1).2 q.2
        rw [hrep, List.sum_replicate, smul_eq_mul, Nat.mul_one]
      refine ⟨fs, xs, by rw [hlastL, hout2], hfslen, hfmem, by rw [hdrop]; exact hxF,
        hxs, hflatLen, ?_, ?_⟩
      · intro hpos
        have hlenpos : 0 < ((fs.zip xs).map fun p => p.1.apply p.2).length := by
          simp only [List.length_map]
          rw [hzipLen]
          exact hpos
        have hys : (((fs.zip xs).map fun p => p.1.apply p.2).isEmpty) = false := by
          cases hm : (fs.zip xs).map fun p => p.1.apply p.2 with
          | nil => rw [hm] at hlenpos; simp at hlenpos
          | cons y tl => rfl
        simp only [PFNN.forward, hlastL, hout2, hdrop, hxF, ← hfs]
        simp only [pfnnOut, torchCat, hys]
        rfl
      · intro hzero
        have hys : (((fs.zip xs).map fun p => p.1.apply p.2).isEmpty) = true := by
          have : ((fs.zip xs).map fun p => p.1.apply p.2).length = 0 := by
            rw [List.length_map, hzipLen, hzero]
          rw [List.isEmpty_iff_length_eq_zero]
          exact this
        simp only [PFNN.forward, hlastL, hout2, hdrop, hxF, ← hfs]
        simp only [pfnnOut, torchCat, hys]
        rfl

theorem fnnBuild_getLast (w : Nat → Nat → Nat → ℚ) (cfg : DType) :
    ∀ (k a b : Nat) (rest : List Nat),
      ∃ l, (fnnBuild w cfg k (a :: b :: rest)).getLast? = some l ∧
        ∀ v, (l.apply v).length = (a :: b :: rest).getLastD 0
  | k, a, b, [] =>
      ⟨torchLinearKW w k a b cfg, rfl, fun v => by
        simpa [List.getLastD] using apply_length_kw w cfg k a b v⟩
  | k, a, b, c :: rest => by
      obtain ⟨l, hl, hlen⟩ := fnnBuild_getLast w cfg (k + 1) b c rest
      have hcons : fnnBuild w cfg k (a :: b :: c :: rest) =
          torchLinearKW w k a b cfg :: fnnBuild w cfg (k + 1) (b :: c :: rest) := rfl
      have hcons2 : fnnBuild w cfg (k + 1) (b :: c :: rest) =
          torchLinearKW w (k + 1) b c cfg :: fnnBuild w cfg (k + 2) (c :: rest) := rfl
      refine ⟨l, ?_, ?_⟩
      · rw [hcons, hcons2, List.getLast?_cons_cons, ← hcons2]
        exact hl
      · intro v
        rw [hlen v]
        simp [List.getLastD_eq_getLast?, List.getLast?_cons_cons]

theorem fnn_forward_len (w : Nat → Nat → Nat → ℚ) (cfg : DType) (σ : ℚ → ℚ)
    (it : Option (List ℚ → List ℚ)) (x : List ℚ) (sizes : List Nat)
    (h2 : 2 ≤ sizes.length) :
    ∃ y, FNN.forward σ (FNN.initialize_layers w cfg sizes) it none x = some y ∧
      y.length = sizes.getLastD 0 := by
  match sizes, h2 with
  | a :: b :: rest, _ =>
    obtain ⟨l, hl, hlen⟩ := fnnBuild_getLast w cfg 0 a b rest
    refine ⟨l.apply ((fnnBuild w cfg 0 (a :: b :: rest)).dropLast.foldl
      (fun v m => (m.apply v).map σ) (inTrans it x)), ?_, hlen _⟩
    simp only [FNN.forward, lastApply, FNN.initialize_layers, hl]
    rfl

/-- C2 counterexample: the size sequence `[2, [], 0]` (zero outputs with a
branched second-to-last entry) passes every construction-time assertion, yet
forward evaluation does not return a tensor: the output stage calls
`torch.cat` on an empty list, which raises. -/
theorem c2_counterexample :
    PFNN.initialize_layers (fun _ _ _ => 0) .float64
        [.scalar 2, .branched [], .scalar 0] = .ok [.par [], .par []] ∧
      PFNN.forward (fun q => q) [.par [], .par []] none none [1, 1] = none :=
  ⟨rfl, rfl⟩

/-- C2 (amended): for every valid size sequence, forward evaluation with no
output transform returns a tensor whose last dimension equals the specified
output size — for `FNN` always, and for `PFNN` provided the second-to-last
entry is scalar or the output size is positive (a branched second-to-last
entry with zero outputs makes forward raise on the empty concatenation). -/
theorem c2_output_width (w : Nat → Nat → Nat → ℚ) (cfg : DType) (σ : ℚ → ℚ)
    (it : Option (List ℚ → List ℚ)) (x : List ℚ) :
    (∀ (sizes : List Nat), 2 ≤ sizes.length →
      ∃ y, FNN.forward σ (FNN.initialize_layers w cfg sizes) it none x = some y ∧
        y.length = sizes.getLastD 0) ∧
    (∀ (ls : List LayerSize) (layers : List PLayer),
      PFNN.initialize_layers w cfg ls = .ok layers →
      ((∃ p, penultD ls = .scalar p) ∨ 0 < nOutOf ls) →
      ∃ y, PFNN.forward σ layers it none x = some y ∧ y.length = nOutOf ls) := by
  constructor
  · intro sizes h2
    exact fnn_forward_len w cfg σ it x sizes h2
  · intro ls layers h hside
    obtain ⟨hscalar, hbranched⟩ := pfnn_forward_shape w cfg σ it x h
    cases hpen : penultD ls with
    | scalar p =>
        obtain ⟨l, xF, _, _, _, hfwd, hlen⟩ := hscalar p hpen
        exact ⟨l.apply xF, hfwd, hlen xF⟩
    | branched bs =>
        have hpos : 0 < nOutOf ls := by
          cases hside with
          | inl hp => obtain ⟨p, hp2⟩ := hp; rw [hpen] at hp2; cases hp2
          | inr hp => exact hp
        obtain ⟨fs, xs, _, _, _, _, _, hflat, hfwd, _⟩ := hbranched bs hpen
        exact ⟨_, hfwd hpos, hflat⟩

/-- Witness for the amended C2: an `FNN` over `[2, 3]` returns a width-3
tensor; a `PFNN` over `[1, 2]` returns a width-2 tensor. -/
theorem c2_output_width_witness :
    (∃ y, FNN.forward (fun q => q)
        (FNN.initialize_layers (fun _ _ _ => 0) .float64 [2, 3]) none none [1, 1] =
          some y ∧ y.length = ([2, 3] : List Nat).getLastD 0) ∧
    (∃ y, PFNN.forward (fun q => q)
        [.shared (mkLin (fun _ _ _ => 0) .float64 0 1 2)] none none [1] = some y ∧
          y.length = nOutOf [.scalar 1, .scalar 2]) :=
  ⟨(c2_output_width (fun _ _ _ => 0) .float64 (fun q => q) none [1, 1]).1 [2, 3]
      (by decide),
    (c2_output_width (fun _ _ _ => 0) .float64 (fun q => q) none [1]).2
      [.scalar 1, .scalar 2] [.shared (mkLin (fun _ _ _ => 0) .float64 0 1 2)]
      (by rfl) (Or.inl ⟨1, by rfl⟩)⟩

/-- C8 counterexample: at `[3, [], 0]` the second-to-last entry is branched
and construction succeeds, but forward evaluation does not concatenate
per-branch outputs — it fails, because `torch.cat` of the empty list of
per-branch tensors raises. -/
theorem c8_counterexample :
    PFNN.initialize_layers (fun _ _ _ => 1) .float32
        [.scalar 3, .branched [], .scalar 0] = .ok [.par [], .par []] ∧
      PFNN.forward (fun q => q + 1) [.par [], .par []] none none [2, 2, 2] = none :=
  ⟨rfl, rfl⟩

/-- C8 (amended): in a successful `PFNN` construction whose second-to-last
entry is branched, the output stage is one single-output-unit linear per
branch and, provided the output count is positive, forward evaluation
concatenates the per-branch outputs along the feature axis (with zero
outputs the empty concatenation raises instead); with a scalar second-to-last
entry a single shared final layer of width equal to the output size is
applied. -/
theorem c8_output_stage (w : Nat → Nat → Nat → ℚ) (cfg : DType) (σ : ℚ → ℚ)
    (it : Option (List ℚ → List ℚ)) (x : List ℚ)
    (ls : List LayerSize) (layers : List PLayer)
    (h : PFNN.initialize_layers w cfg ls = .ok layers) :
    (∀ bs, penultD ls = .branched bs →
      ∃ fs xs, layers.getLast? = some (.par fs) ∧ fs.length = nOutOf ls ∧
        (∀ f ∈ fs, f.outF = 1) ∧
        pfnnHidden σ layers.dropLast (.single (inTrans it x)) = some (.multi xs) ∧
        xs.length = nOutOf ls ∧
        (0 < nOutOf ls →
          PFNN.forward σ layers it none x =
            some (((fs.zip xs).map fun p => p.1.apply p.2).flatten))) ∧
    (∀ p, penultD ls = .scalar p →
      ∃ l xF, layers.getLast? = some (.shared l) ∧ l.outF = nOutOf ls ∧
        pfnnHidden σ layers.dropLast (.single (inTrans it x)) = some (.single xF) ∧
        PFNN.forward σ layers it none x = some (l.apply xF)) := by
  obtain ⟨hscalar, hbranched⟩ := pfnn_forward_shape w cfg σ it x h
  constructor
  · intro bs hpen
    obtain ⟨fs, xs, hlastL, hfslen, hfmem, hhid, hxs, _, hfwd, _⟩ := hbranched bs hpen
    exact ⟨fs, xs, hlastL, hfslen, fun f hf => (hfmem f hf).1, hhid, hxs, hfwd⟩
  · intro p hpen
    obtain ⟨l, xF, hlastL, houtF, hhid, hfwd, _⟩ := hscalar p hpen
    exact ⟨l, xF, hlastL, houtF, hhid, hfwd⟩

/-- Witness for the amended C8 at `[1, [2], 1]` (branched second-to-last
entry) and `[1, 2]` (scalar second-to-last entry). -/
theorem c8_output_stage_witness :
    (∃ fs xs,
      ([PLayer.par [mkLin (fun _ _ _ => 0) .float64 0 1 2],
        PLayer.par [mkLin (fun _ _ _ => 0) .float64 1 2 1]].getLast? = some (.par fs)) ∧
      fs.length = nOutOf [.scalar 1, .branched [2], .scalar 1] ∧
      (∀ f ∈ fs, f.outF = 1) ∧
      pfnnHidden (fun q => q)
        ([PLayer.par [mkLin (fun _ _ _ => 0) .float64 0 1 2],
          PLayer.par [mkLin (fun _ _ _ => 0) .float64 1 2 1]].dropLast)
        (.single (inTrans none [1])) = some (.multi xs) ∧
      xs.length = nOutOf [.scalar 1, .branched [2], .scalar 1] ∧
      (0 < nOutOf [.scalar 1, .branched [2], .scalar 1] →
        PFNN.forward (fun q => q)
          [PLayer.par [mkLin (fun _ _ _ => 0) .float64 0 1 2],
            PLayer.par [mkLin (fun _ _ _ => 0) .float64 1 2 1]] none none [1] =
          some (((fs.zip xs).map fun p => p.1.apply p.2).flatten))) :=
  (c8_output_stage (fun _ _ _ => 0) .float64 (fun q => q) none [1]
    [.scalar 1, .branched [2], .scalar 1]
    [.par [mkLin (fun _ _ _ => 0) .float64 0 1 2],
      .par [mkLin (fun _ _ _ => 0) .float64 1 2 1]]
    (by rfl)).1 [2] (by rfl)

theorem dropLast_map_comm {α β : Type} (f : α → β) : ∀ l : List α,
    (l.map f).dropLast = l.dropLast.map f
  | [] => rfl
  | [_] => rfl
  | a :: b :: rest => by
      have ih := dropLast_map_comm f (b :: rest)
      simp only [List.map_cons, List.dropLast_cons₂] at ih ⊢
      rw [ih]

theorem penultD_map_scalar : ∀ (sizes : List Nat), 2 ≤ sizes.length →
    penultD (sizes.map .scalar) = .scalar (penultN sizes)
  | [a, b], _ => rfl
  | a :: b :: c :: rest, _ => by
      have ih := penultD_map_scalar (b :: c :: rest) (by simp)
      simpa [penultD, penultN] using ih

theorem fnnPBuild_concat (w : Nat → Nat → Nat → ℚ) (cfg : DType) :
    ∀ (sizes : List Nat) (k : Nat), 2 ≤ sizes.length →
      fnnPBuild w cfg k sizes =
        fnnPBuild w cfg k sizes.dropLast ++
          [mkLin w cfg (k + sizes.length - 2) (penultN sizes) (sizes.getLastD 0)]
  | [a, b], k, _ => by
      simp [fnnPBuild, penultN, List.getLastD]
  | a :: b :: c :: rest, k, _ => by
      have ih := fnnPBuild_concat w cfg (b :: c :: rest) (k + 1) (by simp)
      have hidx : (k + 1) + (b :: c :: rest).length - 2 =
          k + (a :: b :: c :: rest).length - 2 := by
        simp only [List.length_cons]
        omega
      have hpen : penultN (a :: b :: c :: rest) = penultN (b :: c :: rest) := rfl
      have hlastD : (a :: b :: c :: rest).getLastD 0 = (b :: c :: rest).getLastD 0 := by
        simp [List.getLastD_eq_getLast?, List.getLast?_cons_cons]
      have hstep : fnnPBuild w cfg k (a :: b :: c :: rest) =
          mkLin w cfg k a b :: fnnPBuild w cfg (k + 1) (b :: c :: rest) := rfl
      have hstep2 : fnnPBuild w cfg k ((a :: b :: c :: rest).dropLast) =
          mkLin w cfg k a b :: fnnPBuild w cfg (k + 1) ((b :: c :: rest).dropLast) := by
        simp only [List.dropLast_cons₂]
        rfl
      rw [hstep, hstep2, ih, hidx, hpen, hlastD]
      rfl

theorem loop_all_scalar (w : Nat → Nat → Nat → ℚ) (cfg : DType) (nOut : Nat) :
    ∀ (sizes : List Nat) (k : Nat),
      interiorLoop w cfg nOut k (interiorPairs (sizes.map .scalar)) =
        .ok (k + (sizes.length - 2), (fnnPBuild w cfg k sizes.dropLast).map .shared)
  | [], k => rfl
  | [_], k => rfl
  | [_, _], k => rfl
  | a :: b :: c :: rest, k => by
      have ih := loop_all_scalar w cfg nOut (b :: c :: rest) (k + 1)
      have hstep : interiorStep w cfg nOut k (LayerSize.scalar a, LayerSize.scalar b) =
          .ok (k + 1, .shared (mkLin w cfg k a b)) := rfl
      have hpairs : interiorPairs ((a :: b :: c :: rest).map .scalar) =
          (LayerSize.scalar a, LayerSize.scalar b) ::
            interiorPairs ((b :: c :: rest).map .scalar) := rfl
      rw [hpairs, loop_cons_ok hstep, ih]
      have hidx : (k + 1) + ((b :: c :: rest).length - 2) =
          k + ((a :: b :: c :: rest).length - 2) := by
        simp only [List.length_cons]
        omega
      have hlist : (fnnPBuild w cfg k ((a :: b :: c :: rest).dropLast)).map PLayer.shared =
          PLayer.shared (mkLin w cfg k a b) ::
            (fnnPBuild w cfg (k + 1) ((b :: c :: rest).dropLast)).map PLayer.shared := by
        simp only [List.dropLast_cons₂]
        rfl
      rw [hlist, ← hidx]

theorem all_pairOk_map_scalar (nOut : Nat) : ∀ (l : List Nat),
    (interiorPairs (l.map .scalar)).all (pairOk nOut) = true
  | [] => rfl
  | [_] => rfl
  | [_, _] => rfl
  | a :: b :: c :: rest => by
      have ih := all_pairOk_map_scalar nOut (b :: c :: rest)
      simp only [List.map_cons] at ih ⊢
      rw [show interiorPairs (LayerSize.scalar a :: LayerSize.scalar b ::
        LayerSize.scalar c :: rest.map LayerSize.scalar) =
        (LayerSize.scalar a, LayerSize.scalar b) :: interiorPairs (LayerSize.scalar b ::
          LayerSize.scalar c :: rest.map LayerSize.scalar) from rfl]
      rw [List.all_cons]
      simp only [ih]
      rfl

theorem pfnn_scalar_init (w : Nat → Nat → Nat → ℚ) (cfg : DType)
    (sizes : List Nat) (h2 : 2 ≤ sizes.length) :
    PFNN.initialize_layers w cfg (sizes.map .scalar) =
      .ok ((fnnPBuild w cfg 0 sizes).map .shared) := by
  match sizes, h2 with
  | a :: b :: rest, _ =>
    obtain ⟨nL, hL⟩ : ∃ nL, (a :: b :: rest).getLast? = some nL := by
      cases hg : (a :: b :: rest).getLast? with
      | none => rw [List.getLast?_eq_none_iff] at hg; cases hg
      | some v => exact ⟨v, rfl⟩
    have hLmap : ((a :: b :: rest).map LayerSize.scalar).getLast? =
        some (.scalar nL) := by
      rw [List.getLast?_map, hL]
      rfl
    have hnOut : nOutOf ((a :: b :: rest).map LayerSize.scalar) = nL := by
      rw [nOutOf, hLmap]
    have hpen : penultD ((a :: b :: rest).map LayerSize.scalar) =
        .scalar (penultN (a :: b :: rest)) := penultD_map_scalar _ (by simp)
    have hlastD : (a :: b :: rest).getLastD 0 = nL := by
      rw [List.getLastD_eq_getLast?, hL]
      rfl
    have hvalid : validSizes ((a :: b :: rest).map LayerSize.scalar) = true := by
      apply valid_of_parts
      · simp
      · exact ⟨a, rfl⟩
      · exact ⟨nL, hLmap⟩
      · rw [noRejoinB, List.all_eq_true]
        intro pq hpq
        obtain ⟨k, hk⟩ := getElem?_of_mem_ls hpq
        obtain ⟨h1, h2⟩ := interiorPairs_getElem?_rev _ k pq hk
        obtain ⟨prev, curr⟩ := pq
        have hsc : ∀ (i : Nat) (e : LayerSize),
            ((a :: b :: rest).map LayerSize.scalar)[i]? = some e →
            ∃ n, e = .scalar n := by
          intro i e he
          have hmem := List.getElem?_mem he
          obtain ⟨n, _, rfl⟩ := List.mem_map.mp hmem
          exact ⟨n, rfl⟩
        obtain ⟨n1, rfl⟩ := hsc k prev h1
        obtain ⟨n2, rfl⟩ := hsc (k + 1) curr h2
        rfl
      · rw [allBranchedOk, List.all_eq_true]
        intro e he
        obtain ⟨n, _, rfl⟩ := List.mem_map.mp he
        rfl
    obtain ⟨layers, hlayers⟩ : ∃ layers,
        PFNN.initialize_layers w cfg ((a :: b :: rest).map LayerSize.scalar) =
          .ok layers := by
      have hok := pfnnInit_ok_of_valid w cfg _ hvalid
      cases hres : PFNN.initialize_layers w cfg ((a :: b :: rest).map LayerSize.scalar) with
      | error e => rw [hres] at hok; simp [exOk] at hok
      | ok l => exact ⟨l, rfl⟩
    obtain ⟨_, _, _, cnt, hidden, out, hloop2, hout2, hlay⟩ := pfnnInit_ok_parts hlayers
    rw [loop_all_scalar w cfg _ (a :: b :: rest) 0] at hloop2
    cases hloop2
    rw [hpen] at hout2
    have hout3 : out = .shared (mkLin w cfg (0 + ((a :: b :: rest).length - 2))
        (penultN (a :: b :: rest)) (nOutOf ((a :: b :: rest).map LayerSize.scalar))) := by
      simpa [outputStage] using hout2.symm
    rw [hlayers, hlay, hout3, hnOut]
    rw [fnnPBuild_concat w cfg (a :: b :: rest) 0 (by simp), List.map_append]
    have hidx : 0 + ((a :: b :: rest).length - 2) = 0 + (a :: b :: rest).length - 2 := by
      omega
    rw [hidx, hlastD]
    rfl

theorem pfnnHidden_shared (σ : ℚ → ℚ) : ∀ (hs : List Linear) (v : List ℚ),
    pfnnHidden σ (hs.map .shared) (.single v) =
      some (.single (hs.foldl (fun u m => (m.apply u).map σ) v))
  | [], v => rfl
  | m :: hs, v => by
      rw [List.map_cons,
        pfnnHidden_cons_some (show pstep σ (.shared m) (.single v) =
          some (.single ((m.apply v).map σ)) from rfl)]
      rw [List.foldl_cons]
      exact pfnnHidden_shared σ hs ((m.apply v).map σ)

theorem pfnn_shared_forward (σ : ℚ → ℚ) (it : Option (List ℚ → List ℚ))
    (ot : Option (List ℚ → List ℚ → List ℚ)) (x : List ℚ)
    (l0 : Linear) (lins : List Linear) :
    PFNN.forward σ ((l0 :: lins).map .shared) it ot x =
      FNN.forward σ (l0 :: lins) it ot x := by
  obtain ⟨lastL, hlast⟩ : ∃ lastL, (l0 :: lins).getLast? = some lastL := by
    cases hg : (l0 :: lins).getLast? with
    | none => rw [List.getLast?_eq_none_iff] at hg; cases hg
    | some v => exact ⟨v, rfl⟩
  have hlastMap : ((l0 :: lins).map PLayer.shared).getLast? = some (.shared lastL) := by
    rw [List.getLast?_map, hlast]
    rfl
  have hdrop : ((l0 :: lins).map PLayer.shared).dropLast =
      ((l0 :: lins).dropLast).map PLayer.shared := dropLast_map_comm _ _
  simp only [PFNN.forward, hlastMap, hdrop,
    pfnnHidden_shared σ ((l0 :: lins).dropLast) (inTrans it x)]
  simp only [FNN.forward, lastApply, hlast]
  rfl

theorem lastApply_cons_cons (σ : ℚ → ℚ) (l m : Linear) (rest : List Linear) (x : List ℚ) :
    lastApply σ (l :: m :: rest) x = lastApply σ (m :: rest) ((l.apply x).map σ) := by
  simp only [lastApply, List.getLast?_cons_cons, List.dropLast_cons₂, List.foldl_cons]

theorem apply_of_params {l m : Linear} (hw : l.weight = m.weight)
    (hb : l.biasV = m.biasV) (x : List ℚ) : l.apply x = m.apply x := by
  rw [Linear.apply, Linear.apply, hw, hb]

theorem lastApply_congr (σ : ℚ → ℚ) {net net2 : List Linear}
    (hrel : List.Forall₂ (fun l m => l.weight = m.weight ∧ l.biasV = m.biasV) net net2) :
    ∀ x, lastApply σ net x = lastApply σ net2 x := by
  induction hrel with
  | nil => intro x; rfl
  | cons h htail ih =>
      intro x
      rename_i l m r1 r2
      cases htail with
      | nil =>
          simp only [lastApply, List.getLast?_singleton, List.dropLast_single,
            List.foldl_nil, Option.some.injEq]
          exact apply_of_params h.1 h.2 x
      | cons h2 ht2 =>
          rename_i l2 m2 r12 r22 
          rw [lastApply_cons_cons, lastApply_cons_cons]
          rw [apply_of_params h.1 h.2 x]
          exact ih ((m.apply x).map σ)

theorem fnn_forward_congr (σ : ℚ → ℚ) (it : Option (List ℚ → List ℚ))
    (ot : Option (List ℚ → List ℚ → List ℚ)) (x : List ℚ)
    {net net2 : List Linear}
    (hrel : List.Forall₂ (fun l m => l.weight = m.weight ∧ l.biasV = m.biasV) net net2) :
    FNN.forward σ net it ot x = FNN.forward σ net2 it ot x := by
  simp only [FNN.forward, lastApply_congr σ hrel (inTrans it x)]

theorem build_params (w : Nat → Nat → Nat → ℚ) (cfg cfg2 : DType) :
    ∀ (k : Nat) (sizes : List Nat),
      List.Forall₂ (fun l m => l.weight = m.weight ∧ l.biasV = m.biasV)
        (fnnPBuild w cfg k sizes) (fnnBuild w cfg2 k sizes)
  | _, [] => .nil
  | _, [_] => .nil
  | k, _ :: b :: rest => .cons ⟨rfl, rfl⟩ (build_params w cfg cfg2 (k + 1) (b :: rest))

/-- C3: a `PFNN` over an all-scalar size list computes the same forward
function as an `FNN` over the same sizes, with the same activation and the
same initializer value stream (the two builds consume the initializer calls
in the same order and with the same shapes, so the parameters coincide). -/
theorem c3_pfnn_scalar_equiv (w : Nat → Nat → Nat → ℚ) (cfg : DType) (σ : ℚ → ℚ)
    (sizes : List Nat) (h2 : 2 ≤ sizes.length) :
    ∃ layers, PFNN.initialize_layers w cfg (sizes.map .scalar) = .ok layers ∧
      ∀ (it : Option (List ℚ → List ℚ)) (ot : Option (List ℚ → List ℚ → List ℚ))
        (x : List ℚ),
        PFNN.forward σ layers it ot x =
          FNN.forward σ (FNN.initialize_layers w cfg sizes) it ot x := by
  refine ⟨(fnnPBuild w cfg 0 sizes).map .shared, pfnn_scalar_init w cfg sizes h2, ?_⟩
  intro it ot x
  match sizes, h2 with
  | a :: b :: rest, _ =>
    have hbuild : fnnPBuild w cfg 0 (a :: b :: rest) =
        mkLin w cfg 0 a b :: fnnPBuild w cfg 1 (b :: rest) := rfl
    rw [hbuild, pfnn_shared_forward σ it ot x (mkLin w cfg 0 a b)
      (fnnPBuild w cfg 1 (b :: rest)), ← hbuild]
    exact fnn_forward_congr σ it ot x (build_params w cfg cfg 0 (a :: b :: rest))

/-- Witness for C3 at the size list `[1, 2]`. -/
theorem c3_pfnn_scalar_equiv_witness :
    ∃ layers, PFNN.initialize_layers (fun _ _ _ => 1) .float64
        (([1, 2] : List Nat).map .scalar) = .ok layers ∧
      ∀ (it : Option (List ℚ → List ℚ)) (ot : Option (List ℚ → List ℚ → List ℚ))
        (x : List ℚ),
        PFNN.forward (fun q => q * q) layers it ot x =
          FNN.forward (fun q => q * q)
            (FNN.initialize_layers (fun _ _ _ => 1) .float64 [1, 2]) it ot x :=
  c3_pfnn_scalar_equiv (fun _ _ _ => 1) .float64 (fun q => q * q) [1, 2] (by decide)

theorem fnn_fold_state (σ : ℚ → ℚ) : ∀ (hs : List Linear) (x0 : List ℚ) (acc : List Linear),
    hs.foldl (fnnStepSt σ) (x0, acc) =
      (hs.foldl (fun v m => (m.apply v).map σ) x0, acc ++ hs)
  | [], x0, acc => by simp
  | m :: hs, x0, acc => by
      rw [List.foldl_cons, List.foldl_cons]
      have ih := fnn_fold_state σ hs ((m.apply x0).map σ) (acc ++ [m])
      simp only [fnnStepSt, Linear.applySt] at ih ⊢
      rw [ih]
      simp

theorem fnn_forwardSt_frame (σ : ℚ → ℚ) (net : List Linear)
    (it : Option (List ℚ → List ℚ)) (ot : Option (List ℚ → List ℚ → List ℚ))
    (x : List ℚ) :
    (FNN.forwardSt σ net it ot x).2 = net ∧
    (FNN.forwardSt σ net it ot x).1 = FNN.forward σ net it ot x := by
  cases hg : net.getLast? with
  | none =>
      constructor
      · simp [FNN.forwardSt, hg]
      · simp [FNN.forwardSt, FNN.forward, lastApply, hg]
  | some l =>
      have hfold := fnn_fold_state σ net.dropLast (inTrans it x) []
      constructor
      · simp only [FNN.forwardSt, hg, hfold, Linear.applySt, List.nil_append]
        exact dropLast_concat_getLast?_self net l hg
      · simp only [FNN.forwardSt, hg, hfold, Linear.applySt, List.nil_append,
          FNN.forward, lastApply]

theorem parApplySt_spec : ∀ (fs : List Linear) (xs : List (List ℚ)),
    parApplySt fs xs = ((fs.zip xs).map fun p => p.1.apply p.2, fs)
  | [], _ => rfl
  | _ :: _, [] => rfl
  | f :: fs2, x :: xs2 => by
      have ih := parApplySt_spec fs2 xs2
      simp only [parApplySt, Linear.applySt, ih, List.zip_cons_cons, List.map_cons]

theorem parApplyAll_spec : ∀ (fs : List Linear) (v : List ℚ),
    parApplyAll fs v = (fs.map fun f => f.apply v, fs)
  | [], _ => rfl
  | f :: fs2, v => by
      have ih := parApplyAll_spec fs2 v
      simp only [parApplyAll, Linear.applySt, ih, List.map_cons]

theorem pstepSt_spec (σ : ℚ → ℚ) : ∀ (L : PLayer) (xv : PVal),
    pstepSt σ L xv = (pstep σ L xv, L)
  | .par fs, .multi xs => by
      simp only [pstepSt, parApplySt_spec, pstep, List.map_map]
      rfl
  | .par fs, .single v => by
      simp only [pstepSt, parApplyAll_spec, pstep, List.map_map]
      rfl
  | .shared l, .single v => rfl
  | .shared l, .multi xs => rfl

theorem pfnn_fold_state (σ : ℚ → ℚ) : ∀ (hs : List PLayer) (ox : Option PVal)
    (acc : List PLayer),
    hs.foldl (pfnnAccSt σ) (ox, acc) =
      (hs.foldl (fun o L => o.bind fun v => pstep σ L v) ox, acc ++ hs)
  | [], ox, acc => by simp
  | L :: hs, ox, acc => by
      rw [List.foldl_cons, List.foldl_cons]
      cases ox with
      | none =>
          have ih := pfnn_fold_state σ hs none (acc ++ [L])
          simp only [pfnnAccSt, Option.bind] at ih ⊢
          rw [ih]
          simp
      | some v =>
          have ih := pfnn_fold_state σ hs (pstep σ L v) (acc ++ [L])
          simp only [pfnnAccSt, pstepSt_spec σ L v, Option.bind] at ih ⊢
          rw [ih]
          simp

theorem pfnn_forwardSt_frame (σ : ℚ → ℚ) (layers : List PLayer)
    (it : Option (List ℚ → List ℚ)) (ot : Option (List ℚ → List ℚ → List ℚ))
    (x : List ℚ) :
    (PFNN.forwardSt σ layers it ot x).2 = layers ∧
    (PFNN.forwardSt σ layers it ot x).1 = PFNN.forward σ layers it ot x := by
  cases hg : layers.getLast? with
  | none =>
      constructor
      · simp [PFNN.forwardSt, hg]
      · simp [PFNN.forwardSt, PFNN.forward, hg]
  | some lastL =>
      have hfold := pfnn_fold_state σ layers.dropLast
        (some (.single (inTrans it x))) []
      have hre : layers.dropLast ++ [lastL] = layers :=
        dropLast_concat_getLast?_self layers lastL hg
      cases hhid : pfnnHidden σ layers.dropLast (.single (inTrans it x)) with
      | none =>
          rw [pfnnHidden] at hhid
          constructor
          · simp only [PFNN.forwardSt, hg, hfold, List.nil_append, hhid]
            exact hre
          · simp only [PFNN.forwardSt, hg, hfold, List.nil_append, hhid,
              PFNN.forward, pfnnHidden]
      | some xF =>
          rw [pfnnHidden] at hhid
          cases xF with
          | single v =>
              cases lastL with
              | shared l =>
                  constructor
                  · simp only [PFNN.forwardSt, hg, hfold, List.nil_append, hhid,
                      Linear.applySt]
                    exact hre
                  · simp only [PFNN.forwardSt, hg, hfold, List.nil_append, hhid,
                      PFNN.forward, pfnnHidden, pfnnOut, Linear.applySt]
              | par fs =>
                  constructor
                  · simp only [PFNN.forwardSt, hg, hfold, List.nil_append, hhid]
                    exact hre
                  · simp only [PFNN.forwardSt, hg, hfold, List.nil_append, hhid,
                      PFNN.forward, pfnnHidden, pfnnOut]
          | multi xs =>
              cases lastL with
              | shared l =>
                  constructor
                  · simp only [PFNN.forwardSt, hg, hfold, List.nil_append, hhid]
                    exact hre
                  · simp only [PFNN.forwardSt, hg, hfold, List.nil_append, hhid,
                      PFNN.forward, pfnnHidden, pfnnOut]
              | par fs =>
                  constructor
                  · simp only [PFNN.forwardSt, hg, hfold, List.nil_append, hhid,
                      parApplySt_spec]
                    exact hre
                  · simp only [PFNN.forwardSt, hg, hfold, List.nil_append, hhid,
                      PFNN.forward, pfnnHidden, pfnnOut, parApplySt_spec]
                    cases torchCat ((fs.zip xs).map fun p => p.1.apply p.2) with
                    | none => rfl
                    | some y => rfl

/-- C9: forward evaluation of either network reads the layer parameters but
never writes them: running the state-threaded forward (`FNN.forwardSt`,
`PFNN.forwardSt`, in which every parameter access passes the layer through
`Linear.applySt`) returns the layer store unchanged, and computes the same
value as the plain forward. -/
theorem c9_forward_no_mutation (σ : ℚ → ℚ) (net : List Linear) (layers : List PLayer)
    (it : Option (List ℚ → List ℚ)) (ot : Option (List ℚ → List ℚ → List ℚ))
    (x : List ℚ) :
    (FNN.forwardSt σ net it ot x).2 = net ∧
    (FNN.forwardSt σ net it ot x).1 = FNN.forward σ net it ot x ∧
    (PFNN.forwardSt σ layers it ot x).2 = layers ∧
    (PFNN.forwardSt σ layers it ot x).1 = PFNN.forward σ layers it ot x :=
  ⟨(fnn_forwardSt_frame σ net it ot x).1, (fnn_forwardSt_frame σ net it ot x).2,
    (pfnn_forwardSt_frame σ layers it ot x).1, (pfnn_forwardSt_frame σ layers it ot x).2⟩

theorem fnnBuild_dtype (w : Nat → Nat → Nat → ℚ) (cfg : DType) :
    ∀ (k : Nat) (sizes : List Nat),
      ∀ l ∈ fnnBuild w cfg k sizes, l.dtype = cfg ∧ l.hasBias = true
  | _, [] => by intro l hl; cases hl
  | _, [_] => by intro l hl; cases hl
  | k, a :: b :: rest => by
      intro l hl
      rw [show fnnBuild w cfg k (a :: b :: rest) =
        torchLinearKW w k a b cfg :: fnnBuild w cfg (k + 1) (b :: rest) from rfl] at hl
      rcases List.mem_cons.mp hl with rfl | h2
      · exact ⟨rfl, rfl⟩
      · exact fnnBuild_dtype w cfg (k + 1) (b :: rest) l h2

theorem step_linears {w : Nat → Nat → Nat → ℚ} {cfg : DType} {nOut cnt c1 : Nat}
    {prev curr : LayerSize} {L : PLayer}
    (h : interiorStep w cfg nOut cnt (prev, curr) = .ok (c1, L)) :
    ∀ l ∈ pLinears L, l.dtype = defaultDtype ∧ l.hasBias = true := by
  cases curr with
  | scalar c =>
      cases prev with
      | scalar p =>
          rw [show interiorStep w cfg nOut cnt (LayerSize.scalar p, LayerSize.scalar c) =
            .ok (cnt + 1, .shared (mkLin w cfg cnt p c)) from rfl] at h
          cases h
          intro l hl
          simp only [pLinears, List.mem_singleton] at hl
          subst hl
          exact ⟨rfl, rfl⟩
      | branched bs =>
          rw [show interiorStep w cfg nOut cnt (LayerSize.branched bs, LayerSize.scalar c) =
            .error .rejoin from rfl] at h
          cases h
  | branched cs =>
      by_cases hlen : cs.length = nOut
      · cases prev with
        | scalar p =>
            rw [show interiorStep w cfg nOut cnt (LayerSize.scalar p, LayerSize.branched cs) =
              .ok (cnt + nOut, .par ((List.range nOut).map fun j =>
                mkLin w cfg (cnt + j) p (cs.getD j 0))) from by
              simp [interiorStep, hlen]] at h
            cases h
            intro l hl
            simp only [pLinears] at hl
            obtain ⟨j, _, rfl⟩ := List.mem_map.mp hl
            exact ⟨rfl, rfl⟩
        | branched ps =>
            by_cases hple : nOut ≤ ps.length
            · rw [show interiorStep w cfg nOut cnt
                (LayerSize.branched ps, LayerSize.branched cs) =
                .ok (cnt + nOut, .par ((List.range nOut).map fun j =>
                  mkLin w cfg (cnt + j) (ps.getD j 0) (cs.getD j 0))) from by
                simp [interiorStep, hlen, hple]] at h
              cases h
              intro l hl
              simp only [pLinears] at hl
              obtain ⟨j, _, rfl⟩ := List.mem_map.mp hl
              exact ⟨rfl, rfl⟩
            · rw [show interiorStep w cfg nOut cnt
                (LayerSize.branched ps, LayerSize.branched cs) = .error .indexError from by
                simp [interiorStep, hlen, hple]] at h
              cases h
      · have hstep : interiorStep w cfg nOut cnt (prev, LayerSize.branched cs) =
            .error .subLayerCount := by
          cases prev <;> simp [interiorStep, hlen]
        rw [hstep] at h
        cases h

theorem loop_linears (w : Nat → Nat → Nat → ℚ) (cfg : DType) (nOut : Nat) :
    ∀ (ps : List (LayerSize × LayerSize)) (cnt cnt2 : Nat) (layers : List PLayer),
      interiorLoop w cfg nOut cnt ps = .ok (cnt2, layers) →
      ∀ L ∈ layers, ∀ l ∈ pLinears L, l.dtype = defaultDtype ∧ l.hasBias = true
  | [], cnt, cnt2, layers, he => by
      simp only [interiorLoop] at he
      cases he
      intro L hL
      cases hL
  | pq :: rest, cnt, cnt2, layers, he => by
      cases hstep : interiorStep w cfg nOut cnt pq with
      | error e => rw [loop_cons_err hstep] at he; cases he
      | ok pr =>
          obtain ⟨c1, L0⟩ := pr
          rw [loop_cons_ok hstep] at he
          cases hrec : interiorLoop w cfg nOut c1 rest with
          | error e => rw [hrec] at he; cases he
          | ok pr2 =>
              obtain ⟨c2, layers2⟩ := pr2
              rw [hrec] at he
              cases he
              intro L hL
              rcases List.mem_cons.mp hL with rfl | h2
              · obtain ⟨prev, curr⟩ := pq
                exact step_linears hstep
              · exact loop_linears w cfg nOut rest c1 _ _ hrec L h2

theorem outputStage_linears {w : Nat → Nat → Nat → ℚ} {cfg : DType} {nOut cnt : Nat}
    {pen : LayerSize} {out : PLayer}
    (h : outputStage w cfg nOut cnt pen = .ok out) :
    ∀ l ∈ pLinears out, l.dtype = defaultDtype ∧ l.hasBias = true := by
  cases pen with
  | scalar p =>
      rw [show outputStage w cfg nOut cnt (.scalar p) =
        .ok (.shared (mkLin w cfg cnt p nOut)) from rfl] at h
      cases h
      intro l hl
      simp only [pLinears, List.mem_singleton] at hl
      subst hl
      exact ⟨rfl, rfl⟩
  | branched bs =>
      by_cases hble : nOut ≤ bs.length
      · rw [show outputStage w cfg nOut cnt (.branched bs) =
          .ok (.par ((List.range nOut).map fun j =>
            mkLin w cfg (cnt + j) (bs.getD j 0) 1)) from by
          simp [outputStage, hble]] at h
        cases h
        intro l hl
        simp only [pLinears] at hl
        obtain ⟨j, _, rfl⟩ := List.mem_map.mp hl
        exact ⟨rfl, rfl⟩
      · simp [outputStage, hble] at h

/-- C10: every linear layer of an `FNN` is constructed with the configured
precision dtype (passed as the keyword `dtype` argument) and with bias
enabled; every linear layer of a `PFNN` is constructed with the framework
default dtype and with bias enabled, because `make_linear` passes the
precision value as the third positional argument of `torch.nn.Linear`,
which is the bias flag rather than the dtype. -/
theorem c10_dtype_bias (w : Nat → Nat → Nat → ℚ) (cfg : DType) (sizes : List Nat)
    (ls : List LayerSize) (layers : List PLayer) :
    (∀ l ∈ FNN.initialize_layers w cfg sizes, l.dtype = cfg ∧ l.hasBias = true) ∧
    (PFNN.initialize_layers w cfg ls = .ok layers →
      ∀ L ∈ layers, ∀ l ∈ pLinears L, l.dtype = defaultDtype ∧ l.hasBias = true) := by
  constructor
  · exact fnnBuild_dtype w cfg 0 sizes
  · intro h L hL
    obtain ⟨_, _, _, cnt, hidden, out, hloop, hout, hlay⟩ := pfnnInit_ok_parts h
    rw [hlay] at hL
    rcases List.mem_append.mp hL with h2 | h2
    · exact loop_linears w cfg (nOutOf ls) (interiorPairs ls) 0 cnt hidden hloop L h2
    · rw [List.mem_singleton] at h2
      subst h2
      exact outputStage_linears hout

/-- Witness for C10: over `[1, 2]`, the single `FNN` layer carries the
configured dtype (here `float64`) with bias on, while the single `PFNN`
layer carries the default dtype `float32` with bias on. -/
theorem c10_dtype_bias_witness :
    ((torchLinearKW (fun _ _ _ => 0) 0 1 2 .float64).dtype = DType.float64 ∧
      (torchLinearKW (fun _ _ _ => 0) 0 1 2 .float64).hasBias = true) ∧
    ((mkLin (fun _ _ _ => 0) .float64 0 1 2).dtype = defaultDtype ∧
      (mkLin (fun _ _ _ => 0) .float64 0 1 2).hasBias = true) :=
  ⟨(c10_dtype_bias (fun _ _ _ => 0) .float64 [1, 2] [.scalar 1, .scalar 2]
      [.shared (mkLin (fun _ _ _ => 0) .float64 0 1 2)]).1
      (torchLinearKW (fun _ _ _ => 0) 0 1 2 .float64) (by decide),
    (c10_dtype_bias (fun _ _ _ => 0) .float64 [1, 2] [.scalar 1, .scalar 2]
      [.shared (mkLin (fun _ _ _ => 0) .float64 0 1 2)]).2 (by rfl)
      (.shared (mkLin (fun _ _ _ => 0) .float64 0 1 2)) (by decide)
      (mkLin (fun _ _ _ => 0) .float64 0 1 2) (by decide)⟩
